import Mathlib

/-!
Verification of the smart_store_recommendation core engine.

This file gives a shallow embedding, in Lean 4, of the algorithmic core of
the repository:

* src/fp_growth_engine.py : FP-tree construction (FPTree._build, FPTree._insert),
  recursive mining (fpgrowth_mine), the public entry point (fpgrowth) and
  association-rule generation (association_rules);
* src/recommender.py : RecommendationEngine.recommend.

Conventions of the embedding:

* Python strings are Lean `String`; Python string comparison (code-point
  lexicographic) is re-implemented below (`strLt`) because the library order
  on `String` does not reduce in the kernel.
* Python `float` arithmetic is modelled by exact rationals `ℚ`; the literal
  `1e-10` is modelled as the exact rational `1/10^10`, and `round(x, k)` as
  round-half-to-even on exact rationals (`roundQ`), which is the idealised
  (real-valued) semantics of the Python code.
* Python `frozenset` of strings is `Finset String`.  Where the source
  iterates over a frozenset (an unspecified but deterministic hash order),
  the model iterates in code-point sorted order (`sortedElems`), a
  deterministic stand-in; no theorem below depends on that order.
* Python stable sorts (`sorted`, `list.sort`) are modelled with a stable
  insertion sort (`pySort`); stable sorts agree on total preorder keys.
* The unbounded recursion of `fpgrowth_mine` is modelled with a fuel
  parameter; the entry point passes fuel that dominates the real recursion
  depth (which is bounded by the longest transaction).
-/

/-! ### Python integer truncation and rounding -/

/-- Python `int(q)` on a rational: truncation toward zero. -/
def pyInt (q : ℚ) : ℤ := if 0 ≤ q then ⌊q⌋ else ⌈q⌉

/-- Round-half-to-even to the nearest integer, the rounding mode of Python
`round`. -/
def roundHalfEven (q : ℚ) : ℤ :=
  if q - ⌊q⌋ < 1/2 then ⌊q⌋
  else if (1:ℚ)/2 < q - ⌊q⌋ then ⌊q⌋ + 1
  else if ⌊q⌋ % 2 = 0 then ⌊q⌋ else ⌊q⌋ + 1

/-- Python `round(q, k)`: round half to even at `k` decimal places. -/
def roundQ (k : ℕ) (q : ℚ) : ℚ := (roundHalfEven (q * 10 ^ k) : ℚ) / 10 ^ k

theorem roundHalfEven_le {q : ℚ} {N : ℤ} (h : q ≤ N) : roundHalfEven q ≤ N := by
  have hf : ⌊q⌋ ≤ N := by
    have h2 := Int.floor_le_floor h
    simpa using h2
  unfold roundHalfEven
  by_cases h1 : q - ⌊q⌋ < 1/2
  · rw [if_pos h1]
    exact hf
  · have hhalf : (1:ℚ)/2 ≤ q - ⌊q⌋ := not_lt.mp h1
    have hlt : ⌊q⌋ < N := by
      rcases eq_or_lt_of_le hf with he | hl
      · exfalso
        have hle : q ≤ (⌊q⌋ : ℚ) := by
          rw [he]
          exact_mod_cast h
        linarith
      · exact hl
    rw [if_neg h1]
    by_cases h2 : (1:ℚ)/2 < q - ⌊q⌋
    · rw [if_pos h2]
      omega
    · rw [if_neg h2]
      by_cases h3 : ⌊q⌋ % 2 = 0
      · rw [if_pos h3]
        exact hf
      · rw [if_neg h3]
        omega

theorem roundQ_le_of_le {k : ℕ} {q : ℚ} {N : ℤ} (h : q ≤ N) : roundQ k q ≤ N := by
  unfold roundQ
  have hpow : (0:ℚ) < 10 ^ k := by positivity
  have h1 : q * 10 ^ k ≤ ((N * 10 ^ k : ℤ) : ℚ) := by
    push_cast
    exact mul_le_mul_of_nonneg_right h (le_of_lt hpow)
  have h2 := roundHalfEven_le h1
  rw [div_le_iff₀ hpow]
  calc (roundHalfEven (q * 10 ^ k) : ℚ) ≤ ((N * 10 ^ k : ℤ) : ℚ) := by exact_mod_cast h2
  _ = (N : ℚ) * 10 ^ k := by push_cast; ring

/-! ### Code-point string order (Python string comparison) -/

/-- Lexicographic strict order on character lists (Python list/str `<`). -/
def charListLt : List Char → List Char → Bool
  | [], [] => false
  | [], _ :: _ => true
  | _ :: _, [] => false
  | a :: as, b :: bs => if a < b then true else if b < a then false else charListLt as bs

/-- Python string `<`: code-point lexicographic comparison. -/
def strLt (a b : String) : Bool := charListLt a.data b.data

/-- Python string `<=`, as used by stable sorts. -/
def strLe (a b : String) : Bool := !(strLt b a)

theorem charListLt_connex : ∀ {a b : List Char},
    charListLt a b = false → charListLt b a = false → a = b := by
  intro a
  induction a with
  | nil => intro b hab hba; cases b with
    | nil => rfl
    | cons x xs => simp [charListLt] at hab
  | cons x xs ih =>
    intro b hab hba
    cases b with
    | nil => simp [charListLt] at hba
    | cons y ys =>
      simp only [charListLt] at hab hba
      by_cases hxy : x < y
      · simp [hxy] at hab
      · by_cases hyx : y < x
        · simp [hxy, hyx] at hba
        · have hx : x = y := le_antisymm (not_lt.mp hyx) (not_lt.mp hxy)
          subst hx
          simp only [lt_irrefl, if_false, if_neg] at hab hba
          rw [ih hab hba]

theorem charListLt_trans : ∀ {a b c : List Char},
    charListLt a b = true → charListLt b c = true → charListLt a c = true := by
  intro a
  induction a with
  | nil =>
    intro b c hab hbc
    cases b with
    | nil => simp [charListLt] at hab
    | cons y ys =>
      cases c with
      | nil => simp [charListLt] at hbc
      | cons z zs => simp [charListLt]
  | cons x xs ih =>
    intro b c hab hbc
    cases b with
    | nil => simp [charListLt] at hab
    | cons y ys =>
      cases c with
      | nil => simp [charListLt] at hbc
      | cons z zs =>
        simp only [charListLt] at hab hbc ⊢
        rcases lt_trichotomy x y with hxy | hxy | hxy
        · rcases lt_trichotomy y z with hyz | hyz | hyz
          · simp [lt_trans hxy hyz]
          · subst hyz; simp [hxy]
          · simp [asymm hyz, hyz] at hbc
        · subst hxy
          rcases lt_trichotomy x z with hxz | hxz | hxz
          · simp [hxz]
          · subst hxz
            simp only [lt_irrefl, if_false, if_neg] at hab hbc ⊢
            exact ih hab hbc
          · simp [asymm hxz, hxz] at hbc
        · simp [asymm hxy, hxy] at hab

theorem string_data_inj {a b : String} (h : a.data = b.data) : a = b :=
  congrArg String.mk h

theorem charListLt_irrefl : ∀ a : List Char, charListLt a a = false := by
  intro a
  induction a with
  | nil => rfl
  | cons x xs ih => simp [charListLt, ih]

theorem strLe_total (a b : String) : strLe a b = true ∨ strLe b a = true := by
  unfold strLe strLt
  by_cases h1 : charListLt b.data a.data = true
  · right
    by_cases h2 : charListLt a.data b.data = true
    · exact absurd (charListLt_trans h1 h2) (by simp [charListLt_irrefl])
    · simp only [Bool.not_eq_true] at h2
      simp [h2]
  · left
    simp only [Bool.not_eq_true] at h1
    simp [h1]

theorem strLe_trans {a b c : String} (h1 : strLe a b = true) (h2 : strLe b c = true) :
    strLe a c = true := by
  unfold strLe strLt at h1 h2 ⊢
  simp only [Bool.not_eq_true', Bool.not_eq_false] at h1 h2 ⊢
  cases hca : charListLt c.data a.data
  · rfl
  · exfalso
    cases hab : charListLt a.data b.data
    · have hd : a.data = b.data := charListLt_connex hab h1
      rw [hd] at hca
      rw [hca] at h2
      exact absurd h2 (by simp)
    · have hcb := charListLt_trans hca hab
      rw [hcb] at h2
      exact absurd h2 (by simp)

theorem strLe_antisymm {a b : String} (h1 : strLe a b = true) (h2 : strLe b a = true) :
    a = b := by
  unfold strLe strLt at h1 h2
  simp only [Bool.not_eq_true', Bool.not_eq_false] at h1 h2
  exact string_data_inj (charListLt_connex h2 h1)

/-! ### Stable insertion sort, modelling Python stable sorts -/

/-- Insert `a` before the first element `b` with `le a b`; helper of `pySort`. -/
def insertLe {α : Type} (le : α → α → Bool) (a : α) : List α → List α
  | [] => [a]
  | b :: l => if le a b then a :: b :: l else b :: insertLe le a l

/-- Stable insertion sort.  Python `sorted`/`list.sort` are stable, and all
stable sorts agree when the comparison is a total preorder, so this models
them exactly. -/
def pySort {α : Type} (le : α → α → Bool) : List α → List α
  | [] => []
  | a :: l => insertLe le a (pySort le l)

theorem insertLe_perm {α : Type} (le : α → α → Bool) (a : α) :
    ∀ l : List α, (insertLe le a l).Perm (a :: l) := by
  intro l
  induction l with
  | nil => exact List.Perm.refl _
  | cons b bs ih =>
    rw [insertLe]
    by_cases h : le a b = true
    · rw [if_pos h]
    · rw [if_neg h]
      exact (ih.cons b).trans (List.Perm.swap a b bs)

theorem pySort_perm {α : Type} (le : α → α → Bool) :
    ∀ l : List α, (pySort le l).Perm l := by
  intro l
  induction l with
  | nil => exact List.Perm.refl _
  | cons a as ih => exact (insertLe_perm le a (pySort le as)).trans (ih.cons a)

theorem mem_pySort {α : Type} {le : α → α → Bool} {l : List α} {a : α} :
    a ∈ pySort le l ↔ a ∈ l := (pySort_perm le l).mem_iff

theorem pairwise_insertLe {α : Type} {le : α → α → Bool}
    (htot : ∀ a b, le a b = true ∨ le b a = true)
    (htrans : ∀ {a b c}, le a b = true → le b c = true → le a c = true) :
    ∀ {l : List α} {a : α}, l.Pairwise (fun x y => le x y = true) →
      (insertLe le a l).Pairwise (fun x y => le x y = true) := by
  intro l
  induction l with
  | nil =>
    intro a _
    simp [insertLe]
  | cons b bs ih =>
    intro a hp
    rcases List.pairwise_cons.mp hp with ⟨hb, hbs⟩
    rw [insertLe]
    by_cases hab : le a b = true
    · rw [if_pos hab]
      refine List.pairwise_cons.mpr ⟨?_, hp⟩
      intro c hc
      rcases List.mem_cons.mp hc with rfl | hcbs
      · exact hab
      · exact htrans hab (hb c hcbs)
    · rw [if_neg hab]
      have hba : le b a = true := (htot a b).resolve_left hab
      refine List.pairwise_cons.mpr ⟨?_, ih hbs⟩
      intro c hc
      have hc2 : c ∈ a :: bs := (insertLe_perm le a bs).mem_iff.mp hc
      rcases List.mem_cons.mp hc2 with rfl | hcbs
      · exact hba
      · exact hb c hcbs

theorem pairwise_pySort {α : Type} {le : α → α → Bool}
    (htot : ∀ a b, le a b = true ∨ le b a = true)
    (htrans : ∀ {a b c}, le a b = true → le b c = true → le a c = true) :
    ∀ l : List α, (pySort le l).Pairwise (fun x y => le x y = true) := by
  intro l
  induction l with
  | nil => simp [pySort]
  | cons a as ih => exact pairwise_insertLe htot htrans ih

/-! ### Sorted element list of a finite set of strings

Python iterates over a `frozenset` in an unspecified but deterministic
order, and `sorted(frozenset)` in code-point order.  The model extracts the
elements of a `Finset String` in code-point sorted order. -/

instance strLeIsTrans : IsTrans String (fun a b => strLe a b = true) :=
  ⟨fun _ _ _ h1 h2 => strLe_trans h1 h2⟩

instance strLeIsAntisymm : IsAntisymm String (fun a b => strLe a b = true) :=
  ⟨fun _ _ h1 h2 => strLe_antisymm h1 h2⟩

instance strLeIsTotal : IsTotal String (fun a b => strLe a b = true) :=
  ⟨strLe_total⟩

/-- Elements of a finite set of strings, in code-point sorted order. -/
def sortedElems (s : Finset String) : List String :=
  Quot.liftOn s.val (fun l => pySort strLe l)
    (fun l₁ l₂ h =>
      List.eq_of_perm_of_sorted
        ((pySort_perm strLe l₁).trans ((List.Perm.trans h (pySort_perm strLe l₂).symm)))
        (pairwise_pySort strLe_total (fun h1 h2 => strLe_trans h1 h2) l₁)
        (pairwise_pySort strLe_total (fun h1 h2 => strLe_trans h1 h2) l₂))

theorem sortedElems_perm (s : Finset String) :
    ∀ {l : List String}, s.val = (l : Multiset String) → (sortedElems s).Perm l := by
  intro l hl
  unfold sortedElems
  rw [hl]
  exact pySort_perm strLe l

theorem mem_sortedElems {s : Finset String} {a : String} :
    a ∈ sortedElems s ↔ a ∈ s := by
  rcases s with ⟨val, nd⟩
  induction val using Quot.ind with
  | _ l =>
    have hp : (sortedElems ⟨Quot.mk _ l, nd⟩).Perm l := sortedElems_perm _ rfl
    rw [hp.mem_iff]
    simp [Finset.mem_mk, Multiset.mem_coe]

theorem nodup_sortedElems (s : Finset String) : (sortedElems s).Nodup := by
  rcases s with ⟨val, nd⟩
  induction val using Quot.ind with
  | _ l =>
    have hp : (sortedElems ⟨Quot.mk _ l, nd⟩).Perm l := sortedElems_perm _ rfl
    exact hp.nodup_iff.mpr nd

theorem length_sortedElems (s : Finset String) : (sortedElems s).length = s.card := by
  rcases s with ⟨val, nd⟩
  induction val using Quot.ind with
  | _ l =>
    have hp : (sortedElems ⟨Quot.mk _ l, nd⟩).Perm l := sortedElems_perm _ rfl
    rw [hp.length_eq]
    rfl

theorem toFinset_sortedElems (s : Finset String) : (sortedElems s).toFinset = s := by
  ext a
  rw [List.mem_toFinset, mem_sortedElems]

/-! ### Keep-first deduplication (pandas `drop_duplicates`, dict key order) -/

/-- Keep the first element for each key, dropping later elements whose key
was already seen; `seen` accumulates the keys emitted so far. -/
def dedupByKeyAux {α β : Type} [DecidableEq β] (key : α → β) : List β → List α → List α
  | _, [] => []
  | seen, a :: l =>
    if key a ∈ seen then dedupByKeyAux key seen l
    else a :: dedupByKeyAux key (key a :: seen) l

/-- Keep the first element of a list for each key value. -/
def dedupByKey {α β : Type} [DecidableEq β] (key : α → β) (l : List α) : List α :=
  dedupByKeyAux key [] l

theorem dedupByKeyAux_subset {α β : Type} [DecidableEq β] {key : α → β} :
    ∀ {seen : List β} {l : List α} {a : α}, a ∈ dedupByKeyAux key seen l → a ∈ l := by
  intro seen l
  induction l generalizing seen with
  | nil => intro a h; simp [dedupByKeyAux] at h
  | cons b bs ih =>
    intro a h
    rw [dedupByKeyAux] at h
    by_cases hb : key b ∈ seen
    · rw [if_pos hb] at h
      exact List.mem_cons_of_mem b (ih h)
    · rw [if_neg hb] at h
      rcases List.mem_cons.mp h with rfl | h2
      · exact List.mem_cons_self a bs
      · exact List.mem_cons_of_mem b (ih h2)

theorem key_not_seen_of_mem_dedupByKeyAux {α β : Type} [DecidableEq β] {key : α → β} :
    ∀ {seen : List β} {l : List α} {a : α},
      a ∈ dedupByKeyAux key seen l → key a ∉ seen := by
  intro seen l
  induction l generalizing seen with
  | nil => intro a h; simp [dedupByKeyAux] at h
  | cons b bs ih =>
    intro a h
    rw [dedupByKeyAux] at h
    by_cases hb : key b ∈ seen
    · rw [if_pos hb] at h
      exact ih h
    · rw [if_neg hb] at h
      rcases List.mem_cons.mp h with rfl | h2
      · exact hb
      · intro hcon
        exact ih h2 (List.mem_cons_of_mem _ hcon)

theorem pairwise_key_dedupByKeyAux {α β : Type} [DecidableEq β] {key : α → β} :
    ∀ {seen : List β} {l : List α},
      (dedupByKeyAux key seen l).Pairwise (fun a b => key a ≠ key b) := by
  intro seen l
  induction l generalizing seen with
  | nil => simp [dedupByKeyAux]
  | cons b bs ih =>
    rw [dedupByKeyAux]
    by_cases hb : key b ∈ seen
    · rw [if_pos hb]
      exact ih
    · rw [if_neg hb]
      refine List.pairwise_cons.mpr ⟨?_, ih⟩
      intro c hc hcon
      exact key_not_seen_of_mem_dedupByKeyAux hc (by rw [← hcon]; exact List.mem_cons_self _ _)

theorem best_of_dedupByKeyAux {α β : Type} [DecidableEq β] {key : α → β}
    {R : α → α → Prop} (hrefl : ∀ a, R a a) :
    ∀ {seen : List β} {l : List α} {c c2 : α},
      l.Pairwise R → c ∈ dedupByKeyAux key seen l → c2 ∈ l → key c2 = key c → R c c2 := by
  intro seen l
  induction l generalizing seen with
  | nil => intro c c2 _ hc; simp [dedupByKeyAux] at hc
  | cons b bs ih =>
    intro c c2 hp hc hc2 hk
    rcases List.pairwise_cons.mp hp with ⟨hb, hbs⟩
    rw [dedupByKeyAux] at hc
    by_cases hbseen : key b ∈ seen
    · rw [if_pos hbseen] at hc
      rcases List.mem_cons.mp hc2 with rfl | h2
      · exfalso
        exact key_not_seen_of_mem_dedupByKeyAux hc (by rw [← hk]; exact hbseen)
      · exact ih hbs hc h2 hk
    · rw [if_neg hbseen] at hc
      rcases List.mem_cons.mp hc with rfl | hrec
      · rcases List.mem_cons.mp hc2 with rfl | h2
        · exact hrefl _
        · exact hb c2 h2
      · rcases List.mem_cons.mp hc2 with rfl | h2
        · exfalso
          exact key_not_seen_of_mem_dedupByKeyAux hrec
            (by rw [← hk]; exact List.mem_cons_self _ _)
        · exact ih hbs hrec h2 hk

/-! ### FP-tree (src/fp_growth_engine.py, classes FPNode and FPTree)

The source builds a pointer tree (`FPNode`: item, count, parent, children
dict, header link).  A node is uniquely identified by its path from the
root, so the model represents the tree as the association list of
(reversed root path, count) pairs, kept in node-creation order; the head
of a key is the node's own item.  Creation order makes the filtered list
for one item exactly the source's header chain for that item, and the key
set at depth 1 exactly the root's children. -/

abbrev Item := String

/-- Node store of an FP-tree: reversed root path → occurrence count, in
node-creation order. -/
abbrev RTree := List (List Item × ℕ)

/-- One step of `FPTree._insert`: reuse the node with key `p`, incrementing
its count, or create it with count 1 (appended, i.e. in creation order). -/
def bump (p : List Item) : RTree → RTree
  | [] => [(p, 1)]
  | qc :: rest => if qc.1 = p then (qc.1, qc.2 + 1) :: rest else qc :: bump p rest

/-- The walk of `FPTree._insert`: descend along the items of the sequence,
`acc` being the reversed path consumed so far; every nonempty prefix of the
sequence is a visited node. -/
def insertTxn (acc : List Item) : List Item → RTree → RTree
  | [], T => T
  | i :: rest, T => insertTxn (i :: acc) rest (bump (i :: acc) T)

/-- Step 1 of `FPTree._build`: per-item occurrence counts over the given
transactions.  Note duplicate occurrences inside one basket each count,
exactly as `freq[item] += 1` does. -/
def freqOf (ts : List (List Item)) (i : Item) : ℕ :=
  (ts.map (fun t => t.count i)).sum

/-- Sort key of step 2 of `FPTree._build`, as a boolean total preorder:
`key=lambda x: (-self.freq[x], x)` means descending frequency with
ascending code-point tie-break. -/
def freqKeyLe (fr : Item → ℕ) (a b : Item) : Bool :=
  if fr b < fr a then true else if fr a < fr b then false else strLe a b

/-- Step 2 of `FPTree._build` for one transaction: keep the items in
`self.freq` (for an item occurring in the transactions this is exactly
`min_support ≤ freq item`) and sort by the key above. -/
def sortFilter (fr : Item → ℕ) (minSup : ℕ) (t : List Item) : List Item :=
  pySort (freqKeyLe fr) (t.filter (fun i => decide (minSup ≤ fr i)))

/-- One iteration of the insertion loop of `FPTree._build`: filter and sort
the transaction, skip it if nothing survives, else insert it. -/
def buildStep (fr : Item → ℕ) (minSup : ℕ) (T : RTree) (t : List Item) : RTree :=
  let filtered := sortFilter fr minSup t
  if filtered.isEmpty then T else insertTxn [] filtered T

/-- The node store built by `FPTree._build` (the root's value and count are
never read by the mining code and are not represented). -/
def buildT (ts : List (List Item)) (minSup : ℕ) : RTree :=
  ts.foldl (buildStep (freqOf ts) minSup) []

/-- An FP-tree: node store plus the surviving frequency table `self.freq`
with `dict.get(i, 0)` lookup semantics (an item is a key of the Python
dict iff it occurs in the transactions and its count passed the filter). -/
structure FPTree where
  tree : RTree
  freq : Item → ℕ

/-- `FPTree.__init__` on a transaction list. -/
def FPTree.build (ts : List (List Item)) (minSup : ℕ) : FPTree :=
  { tree := buildT ts minSup
  , freq := fun i =>
      if minSup ≤ freqOf ts i ∧ 0 < freqOf ts i then freqOf ts i else 0 }

/-- Header chain of `item`: the nodes carrying `item`, in creation order
(`self.header[item]` followed through the `link` fields). -/
def chainNodes (item : Item) (T : RTree) : RTree :=
  T.filter (fun pc => decide (pc.1.head? = some item))

/-- Sum of the counts along the header chain of `item` (the `while n:`
summation loop of `fpgrowth_mine`). -/
def chainSupport (item : Item) (T : RTree) : ℕ :=
  ((chainNodes item T).map (fun pc => pc.2)).sum

/-- `FPTree.conditional_pattern_base`: for each chain node, its ancestor
items up to (excluding) the root, reversed into root-to-node order, with
the node's count; nodes with an empty prefix are dropped.  With reversed
path keys the ancestor sequence is the tail of the key, reversed back. -/
def condBase (item : Item) (T : RTree) : List (List Item × ℕ) :=
  (chainNodes item T).filterMap (fun pc =>
    match pc.1 with
    | [] => none
    | _ :: rest => if rest.isEmpty then none else some (rest.reverse, pc.2))

/-- Expansion of the conditional pattern base into conditional transactions:
`cond_transactions.extend([pattern] * count)`. -/
def expandPatterns (pats : List (List Item × ℕ)) : List (List Item) :=
  pats.flatMap (fun pc => List.replicate pc.2 pc.1)

/-- `FPTree.is_empty`: no child under the root, i.e. no node at depth 1. -/
def isEmptyT (T : RTree) : Bool :=
  (T.filter (fun pc => decide (pc.1.length = 1))).isEmpty

/-- Header-table keys in insertion order: the items of the nodes in
creation order, first occurrences kept (a header entry appears exactly when
the first node of its item is created). -/
def headerItems (T : RTree) : List Item :=
  dedupByKey id (T.filterMap (fun pc => pc.1.head?))

/-- Iteration order of the loop of `fpgrowth_mine`:
`sorted(tree.header.items(), key=lambda x: tree.freq.get(x[0], 0))`,
a stable ascending sort on the surviving frequency. -/
def orderedHeader (t : FPTree) : List Item :=
  pySort (fun a b => decide (t.freq a ≤ t.freq b)) (headerItems t.tree)

/-- Body of the per-item loop of `fpgrowth_mine`; `rec` is the recursive
call used on the conditional tree. -/
def mineItem (rec : FPTree → ℕ → Finset Item → List (Finset Item × ℕ))
    (t : FPTree) (minSup : ℕ) (pre : Finset Item) (item : Item) :
    List (Finset Item × ℕ) :=
  let sup := chainSupport item t.tree
  if sup < minSup then []
  else
    let newItemset := insert item pre
    let condTxns := expandPatterns (condBase item t.tree)
    (newItemset, sup) ::
      (if condTxns.isEmpty then []
       else
         let condTree := FPTree.build condTxns minSup
         if isEmptyT condTree.tree then []
         else rec condTree minSup newItemset)

/-- `fpgrowth_mine`, with a fuel parameter bounding the recursion depth;
the entry point supplies fuel dominating the true depth, so the model
agrees with the source wherever the source terminates. -/
def fpgrowthMine : ℕ → FPTree → ℕ → Finset Item → List (Finset Item × ℕ)
  | 0, _, _, _ => []
  | fuel + 1, t, minSup, pre =>
    (orderedHeader t).flatMap (mineItem (fpgrowthMine fuel) t minSup pre)

/-- Fuel dominating the recursion depth of `fpgrowth_mine`: conditional
transactions are proper prefixes of inserted paths, so the depth is bounded
by the longest transaction, hence by the total input size. -/
def fuelFor (ts : List (List Item)) : ℕ := (ts.map List.length).sum + 1

/-- Count floor of `fpgrowth`: `min_count = max(1, int(min_support * n))`. -/
def minCountOf (minSupport : ℚ) (n : ℕ) : ℕ :=
  (max 1 (pyInt (minSupport * n))).toNat

/-- The (itemset, absolute support count) pairs mined by a `fpgrowth` call
(variable `raw` in the source), before length filtering and fraction
conversion. -/
def fpgrowthRaw (ts : List (List Item)) (minSupport : ℚ) : List (Finset Item × ℕ) :=
  fpgrowthMine (fuelFor ts) (FPTree.build ts (minCountOf minSupport ts.length))
    (minCountOf minSupport ts.length) ∅

/-- `fpgrowth`: keep itemsets of size at most `max_len` and report
`round(count / n, 6)` as the support fraction (entries are (support,
itemsets) pairs, mirroring the result dicts of the source). -/
def fpgrowth (ts : List (List Item)) (minSupport : ℚ) (maxLen : ℕ) :
    List (ℚ × Finset Item) :=
  (fpgrowthRaw ts minSupport).filterMap (fun p =>
    if p.1.card ≤ maxLen then
      some (roundQ 6 ((p.2 : ℚ) / (ts.length : ℚ)), p.1)
    else none)

/-! ### association_rules (src/fp_growth_engine.py) -/

/-- Input entry of `association_rules` (one result dict of `fpgrowth`). -/
structure FreqIS where
  support : ℚ
  itemsets : Finset Item

/-- The lookup `support_map = {fs["itemsets"]: fs["support"] for fs in ...}`
with `dict.get(x, 0)` access: keyed by the itemset, later duplicates
overwrite earlier ones, missing keys give 0. -/
def supportGet (l : List FreqIS) (s : Finset Item) : ℚ :=
  (l.foldl (fun acc fs => if fs.itemsets = s then some fs.support else acc) none).getD 0

/-- Output record of `association_rules`. -/
structure Rule where
  antecedents : Finset Item
  consequents : Finset Item
  support : ℚ
  confidence : ℚ
  lift : ℚ
  leverage : ℚ
  conviction : ℚ
deriving DecidableEq

/-- Pre-cap conviction value; `none` models `float("inf")`, which
`min(conviction, 999.0)` collapses to 999. -/
def cap999 : Option ℚ → ℚ
  | none => 999
  | some c => min c 999

/-- The `1e-10` term of the conviction denominator, as an exact rational. -/
def convEps : ℚ := 1 / 10 ^ 10

/-- Body of the candidate loop of `association_rules`: given the support
lookup, the metric, the threshold, the originating itemset's support
`ruleS`, the itemset and one candidate antecedent, produce the emitted rule
or `none` when the candidate is skipped (zero/absent support) or fails the
metric threshold. -/
def candidateRule (smap : Finset Item → ℚ) (metric : String) (minThreshold : ℚ)
    (ruleS : ℚ) (itemset ant : Finset Item) : Option Rule :=
  let cons := itemset \ ant
  let antS := smap ant
  let consS := smap cons
  if antS = 0 ∨ consS = 0 then none
  else
    let confidence := ruleS / antS
    let lift := confidence / consS
    let leverage := ruleS - antS * consS
    let conviction : Option ℚ :=
      if confidence < 1 then some ((1 - consS) / (1 - confidence + convEps)) else none
    let value := if metric = "confidence" then confidence else lift
    if minThreshold ≤ value then
      some { antecedents := ant
           , consequents := cons
           , support := roundQ 6 ruleS
           , confidence := roundQ 6 confidence
           , lift := roundQ 6 lift
           , leverage := roundQ 6 leverage
           , conviction := roundQ 4 (cap999 conviction) }
    else none

/-- `itertools.combinations(seq, k)`: the length-`k` positional
subsequences of `seq`, in itertools order. -/
def combosLen {α : Type} : ℕ → List α → List (List α)
  | 0, _ => [[]]
  | _ + 1, [] => []
  | k + 1, a :: l => (combosLen k l).map (fun m => a :: m) ++ combosLen (k + 1) l

/-- Candidate antecedents of one frequent itemset:
`for size in range(1, len(itemset)): for antecedent in combinations(...)`,
taken over the model's iteration sequence of the frozenset. -/
def candidateAnts (iset : Finset Item) : List (Finset Item) :=
  (List.range' 1 (iset.card - 1)).flatMap
    (fun size => (combosLen size (sortedElems iset)).map List.toFinset)

/-- Final sort of `association_rules`:
`rules.sort(key=lambda r: r["lift"], reverse=True)` is a stable descending
sort on lift. -/
def sortRulesByLift (rules : List Rule) : List Rule :=
  pySort (fun a b => decide (b.lift ≤ a.lift)) rules

/-- `association_rules`. -/
def associationRules (l : List FreqIS) (metric : String) (minThreshold : ℚ) :
    List Rule :=
  sortRulesByLift
    (l.flatMap (fun fs =>
      if fs.itemsets.card < 2 then []
      else (candidateAnts fs.itemsets).filterMap
        (candidateRule (supportGet l) metric minThreshold fs.support fs.itemsets)))

/-! ### RecommendationEngine.recommend (src/recommender.py) -/

/-- Python `str.strip()` (ASCII whitespace model). -/
def pyStrip (s : String) : String :=
  String.mk (((s.data.dropWhile Char.isWhitespace).reverse.dropWhile
    Char.isWhitespace).reverse)

/-- Worker of `pyTitle`: the boolean records whether the previous character
was a letter. -/
def pyTitleAux : Bool → List Char → List Char
  | _, [] => []
  | prevAlpha, c :: rest =>
    (if c.isAlpha then (if prevAlpha then c.toLower else c.toUpper) else c) ::
      pyTitleAux c.isAlpha rest

/-- Python `str.title()` (ASCII model: a letter is uppercased after a
non-letter and lowercased otherwise). -/
def pyTitle (s : String) : String := String.mk (pyTitleAux false s.data)

/-- Normalisation of one basket item: `i.strip().title()`. -/
def normItem (s : String) : String := pyTitle (pyStrip s)

/-- The normalised basket `input_set`. -/
def normBasket (inputItems : List String) : Finset Item :=
  (inputItems.map normItem).toFinset

/-- One rule of the loaded rule DataFrame, with the fields `recommend`
reads. -/
structure RRule where
  antecedents : Finset Item
  consequents : Finset Item
  support : ℚ
  confidence : ℚ
  lift : ℚ
deriving DecidableEq

/-- One row of the result DataFrame of `recommend`. -/
structure RecRow where
  product : Item
  confidence : ℚ
  lift : ℚ
  support : ℚ
  based_on : String
deriving DecidableEq

/-- Candidate rows contributed by one rule (body of the
`for _, rule in self.rules.iterrows()` loop): the rule fires iff its
antecedent is a subset of the basket; a firing rule failing a live filter
is dropped; otherwise one row is emitted per consequent item not already in
the basket.  The frozenset iteration over the consequents is modelled in
sorted order. -/
def ruleCandidates (B : Finset Item) (minConf minLift : ℚ) (r : RRule) :
    List RecRow :=
  if r.antecedents ⊆ B then
    if r.confidence < minConf ∨ r.lift < minLift then []
    else
      (sortedElems r.consequents).filterMap (fun product =>
        if product ∈ B then none
        else some
          { product := product
          , confidence := roundQ 4 r.confidence
          , lift := roundQ 4 r.lift
          , support := roundQ 4 r.support
          , based_on := String.intercalate ", " (sortedElems r.antecedents) })
  else []

/-- `RecommendationEngine.recommend`: empty rule set gives the empty frame;
otherwise collect candidate rows, and if any, sort by lift descending, keep
the first row per product (`drop_duplicates`), truncate to `top_n`. -/
def recommend (rules : List RRule) (inputItems : List String) (topN : ℕ)
    (minConf minLift : ℚ) : List RecRow :=
  if rules.isEmpty then []
  else
    let B := normBasket inputItems
    let results := rules.flatMap (ruleCandidates B minConf minLift)
    if results.isEmpty then []
    else
      (dedupByKey (fun c => c.product)
        (pySort (fun a b => decide (b.lift ≤ a.lift)) results)).take topN

/-! ### Helper lemmas: mining support bound -/

theorem mem_mineItem_support {rec : FPTree → ℕ → Finset Item → List (Finset Item × ℕ)}
    {t : FPTree} {minSup : ℕ} {pre : Finset Item} {item : Item} {p : Finset Item × ℕ}
    (hrec : ∀ t2 m2 pre2 q, q ∈ rec t2 m2 pre2 → m2 ≤ q.2)
    (hp : p ∈ mineItem rec t minSup pre item) : minSup ≤ p.2 := by
  unfold mineItem at hp
  by_cases hlt : chainSupport item t.tree < minSup
  · rw [if_pos hlt] at hp
    simp at hp
  · rw [if_neg hlt] at hp
    rcases List.mem_cons.mp hp with rfl | htail
    · exact not_lt.mp hlt
    · by_cases hc : (expandPatterns (condBase item t.tree)).isEmpty
      · rw [if_pos hc] at htail
        simp at htail
      · rw [if_neg hc] at htail
        by_cases he : isEmptyT (FPTree.build (expandPatterns (condBase item t.tree)) minSup).tree
        · rw [if_pos he] at htail
          simp at htail
        · rw [if_neg he] at htail
          exact hrec _ _ _ _ htail

theorem fpgrowthMine_support_ge :
    ∀ (fuel : ℕ) (t : FPTree) (minSup : ℕ) (pre : Finset Item) (p : Finset Item × ℕ),
      p ∈ fpgrowthMine fuel t minSup pre → minSup ≤ p.2 := by
  intro fuel
  induction fuel with
  | zero =>
    intro t m pre p hp
    simp [fpgrowthMine] at hp
  | succ fuel ih =>
    intro t m pre p hp
    rw [fpgrowthMine] at hp
    rcases List.mem_flatMap.mp hp with ⟨item, _, hpi⟩
    exact mem_mineItem_support (fun t2 m2 pre2 q hq => ih t2 m2 pre2 q hq) hpi

/-- C10: `fpgrowth` on an empty transaction list returns the empty list
without error; with `n = 0` the count floor is `max(1, int(min_support*0))
= 1`; no support fraction is ever formed (the result list is empty, so the
`count / n` conversion of the result loop contributes nothing). -/
theorem fpgrowth_empty_input :
    ∀ (minSupport : ℚ) (maxLen : ℕ),
      fpgrowth [] minSupport maxLen = [] ∧ minCountOf minSupport 0 = 1 := by
  intro s m
  refine ⟨rfl, ?_⟩
  unfold minCountOf
  have h0 : s * ((0:ℕ) : ℚ) = 0 := by push_cast; ring
  rw [h0]
  have h1 : pyInt 0 = 0 := by norm_num [pyInt]
  rw [h1]
  rfl

/-- C2: every pair mined by a `fpgrowth` run has absolute support count at
least the internal floor `max(1, int(min_support * n))`; an item whose
summed header-chain count is below the floor contributes nothing (neither
an itemset nor a recursion); and every support fraction returned by
`fpgrowth` is `round(c / n, 6)` for a mined count `c` at or above the
floor. -/
theorem fpgrowth_support_floor :
    (∀ (ts : List (List Item)) (minSupport : ℚ) (p : Finset Item × ℕ),
        p ∈ fpgrowthRaw ts minSupport → minCountOf minSupport ts.length ≤ p.2) ∧
    (∀ (rec : FPTree → ℕ → Finset Item → List (Finset Item × ℕ))
        (t : FPTree) (minSup : ℕ) (pre : Finset Item) (item : Item),
        chainSupport item t.tree < minSup → mineItem rec t minSup pre item = []) ∧
    (∀ (ts : List (List Item)) (minSupport : ℚ) (maxLen : ℕ) (e : ℚ × Finset Item),
        e ∈ fpgrowth ts minSupport maxLen →
        ∃ c : ℕ, minCountOf minSupport ts.length ≤ c ∧
          e.1 = roundQ 6 ((c : ℚ) / (ts.length : ℚ)) ∧
          (e.2, c) ∈ fpgrowthRaw ts minSupport) := by
  refine ⟨?_, ?_, ?_⟩
  · intro ts s p hp
    exact fpgrowthMine_support_ge _ _ _ _ _ hp
  · intro rec t minSup pre item h
    unfold mineItem
    rw [if_pos h]
  · intro ts s m e he
    rcases List.mem_filterMap.mp he with ⟨p, hp, heq⟩
    by_cases hlen : p.1.card ≤ m
    · rw [if_pos hlen] at heq
      have he2 : e = (roundQ 6 ((p.2 : ℚ) / (ts.length : ℚ)), p.1) :=
        (Option.some.injEq _ _ ▸ heq).symm
      refine ⟨p.2, fpgrowthMine_support_ge _ _ _ _ _ hp, ?_, ?_⟩
      · rw [he2]
      · rw [he2]
        exact hp
    · rw [if_neg hlen] at heq
      exact absurd heq (by simp)

/-! ### Helper lemmas: association rules -/

theorem supportGet_foldl_no_match {s : Finset Item} :
    ∀ (l : List FreqIS) (acc : Option ℚ), (∀ fs ∈ l, fs.itemsets ≠ s) →
      l.foldl (fun acc fs => if fs.itemsets = s then some fs.support else acc) acc
        = acc := by
  intro l
  induction l with
  | nil => intro acc _; rfl
  | cons a as ih =>
    intro acc h
    rw [List.foldl_cons]
    rw [if_neg (h a (List.mem_cons_self a as))]
    exact ih acc (fun fs hfs => h fs (List.mem_cons_of_mem a hfs))

theorem supportGet_absent {l : List FreqIS} {s : Finset Item}
    (h : ∀ fs ∈ l, fs.itemsets ≠ s) : supportGet l s = 0 := by
  unfold supportGet
  rw [supportGet_foldl_no_match l none h]
  rfl

theorem mem_sortRulesByLift {r : Rule} {l : List Rule} :
    r ∈ sortRulesByLift l ↔ r ∈ l := mem_pySort

theorem mem_assocRules_of_candidate {l : List FreqIS} {metric : String} {th : ℚ}
    {fs : FreqIS} {ant : Finset Item} {r : Rule}
    (hfs : fs ∈ l) (hcard : 2 ≤ fs.itemsets.card)
    (hant : ant ∈ candidateAnts fs.itemsets)
    (hr : candidateRule (supportGet l) metric th fs.support fs.itemsets ant = some r) :
    r ∈ associationRules l metric th := by
  unfold associationRules
  refine mem_sortRulesByLift.mpr (List.mem_flatMap.mpr ⟨fs, hfs, ?_⟩)
  rw [if_neg (not_lt.mpr hcard)]
  exact List.mem_filterMap.mpr ⟨ant, hant, hr⟩

theorem candidateRule_metric_ne {metric : String} (h : metric ≠ "confidence")
    (smap : Finset Item → ℚ) (th ruleS : ℚ) (iset ant : Finset Item) :
    candidateRule smap metric th ruleS iset ant =
      candidateRule smap "lift" th ruleS iset ant := by
  simp only [candidateRule]
  rw [if_neg h, if_neg (by decide : ¬("lift" : String) = "confidence")]

theorem associationRules_metric_ne {metric : String} (h : metric ≠ "confidence")
    (l : List FreqIS) (th : ℚ) :
    associationRules l metric th = associationRules l "lift" th := by
  unfold associationRules
  have hfun : candidateRule (supportGet l) metric th =
      candidateRule (supportGet l) "lift" th := by
    funext ruleS iset ant
    exact candidateRule_metric_ne h (supportGet l) th ruleS iset ant
  rw [hfun]

theorem candidateRule_isSome_lift {metric : String} (h : metric ≠ "confidence")
    (smap : Finset Item → ℚ) (th ruleS : ℚ) (iset ant : Finset Item) :
    (candidateRule smap metric th ruleS iset ant).isSome = true ↔
      (smap ant ≠ 0 ∧ smap (iset \ ant) ≠ 0 ∧
        th ≤ ruleS / smap ant / smap (iset \ ant)) := by
  rw [candidateRule_metric_ne h smap th ruleS iset ant]
  simp only [candidateRule]
  rw [if_neg (by decide : ¬("lift" : String) = "confidence")]
  by_cases h1 : smap ant = 0 ∨ smap (iset \ ant) = 0
  · rw [if_pos h1]
    simp only [Option.isSome_none, Bool.false_eq_true, false_iff]
    rintro ⟨ha, hc, _⟩
    rcases h1 with h1 | h1
    · exact ha h1
    · exact hc h1
  · rw [if_neg h1]
    push_neg at h1
    by_cases h2 : th ≤ ruleS / smap ant / smap (iset \ ant)
    · rw [if_pos h2]
      simp [h1.1, h1.2, h2]
    · rw [if_neg h2]
      simp [h2]

/-- C9: any metric string other than exactly "confidence" silently selects
lift: the run equals the run with metric "lift", and a candidate (with
nonzero looked-up supports) is kept iff its lift meets the threshold; no
validation of the metric name happens. -/
theorem metric_fallback_lift :
    ∀ metric : String, metric ≠ "confidence" →
      (∀ (l : List FreqIS) (th : ℚ),
        associationRules l metric th = associationRules l "lift" th) ∧
      (∀ (smap : Finset Item → ℚ) (th ruleS : ℚ) (iset ant : Finset Item),
        (candidateRule smap metric th ruleS iset ant).isSome = true ↔
          (smap ant ≠ 0 ∧ smap (iset \ ant) ≠ 0 ∧
            th ≤ ruleS / smap ant / smap (iset \ ant))) :=
  fun _ h => ⟨fun l th => associationRules_metric_ne h l th,
    fun smap th ruleS iset ant => candidateRule_isSome_lift h smap th ruleS iset ant⟩

/-! ### Shared concrete data for association-rule witnesses -/

/-- Witness input: frequent itemsets where the lookup hits for the subsets
of AB but misses the consequent C of the split A→C of AC. -/
def wFreq : List FreqIS :=
  [⟨1/2, {"A","B"}⟩, ⟨1/2, {"A"}⟩, ⟨1/2, {"B"}⟩, ⟨1/4, {"A","C"}⟩]

theorem wsgA : supportGet wFreq {"A"} = 1/2 := by
  have h1 : ¬(({"A","B"} : Finset Item) = {"A"}) := by decide
  have h3 : ¬(({"B"} : Finset Item) = {"A"}) := by decide
  have h4 : ¬(({"A","C"} : Finset Item) = {"A"}) := by decide
  norm_num [wFreq, supportGet, List.foldl, h1, h3, h4]

theorem wsgB : supportGet wFreq {"B"} = 1/2 := by
  have h1 : ¬(({"A","B"} : Finset Item) = {"B"}) := by decide
  have h3 : ¬(({"A"} : Finset Item) = {"B"}) := by decide
  have h4 : ¬(({"A","C"} : Finset Item) = {"B"}) := by decide
  norm_num [wFreq, supportGet, List.foldl, h1, h3, h4]

/-- Evaluation of the candidate A→B of the itemset AB on the witness data;
confidence is 1, so the conviction is the capped sentinel 999. -/
theorem wcr : candidateRule (supportGet wFreq) "lift" 1 (1/2) {"A","B"} {"A"} =
    some ⟨{"A"}, {"B"}, 1/2, 1, 2, 1/4, 999⟩ := by
  have hd : ({"A","B"} : Finset Item) \ {"A"} = {"B"} := by decide
  have hm : ¬(("lift" : String) = "confidence") := by decide
  norm_num [candidateRule, hd, hm, wsgA, wsgB, roundQ, roundHalfEven,
    cap999, convEps, Rule.mk.injEq]

theorem metric_fallback_lift_witness :
    associationRules wFreq "Lift" 1 = associationRules wFreq "lift" 1 ∧
      (candidateRule (supportGet wFreq) "Lift" 1 (1/2) {"A","B"} {"A"}).isSome
        = true := by
  have h := metric_fallback_lift "Lift" (by decide)
  refine ⟨h.1 wFreq 1, ?_⟩
  rw [h.2 (supportGet wFreq) 1 (1/2) {"A","B"} {"A"}]
  rw [(by decide : ({"A","B"} : Finset Item) \ {"A"} = {"B"}), wsgA, wsgB]
  norm_num

/-- C8: a candidate split whose antecedent or consequent support is absent
from the lookup is skipped by itself (the candidate yields no rule), while
any other candidate of the run that does produce a rule still appears in
the output: the run is not aborted. -/
theorem lookup_miss_skips_candidate :
    (∀ (l : List FreqIS) (metric : String) (th ruleS : ℚ) (iset ant : Finset Item),
        ((∀ fs ∈ l, fs.itemsets ≠ ant) ∨ (∀ fs ∈ l, fs.itemsets ≠ iset \ ant)) →
        candidateRule (supportGet l) metric th ruleS iset ant = none) ∧
    (∀ (l : List FreqIS) (metric : String) (th : ℚ) (fs : FreqIS)
        (ant : Finset Item) (r : Rule),
        fs ∈ l → 2 ≤ fs.itemsets.card → ant ∈ candidateAnts fs.itemsets →
        candidateRule (supportGet l) metric th fs.support fs.itemsets ant = some r →
        r ∈ associationRules l metric th) := by
  constructor
  · intro l metric th ruleS iset ant habs
    unfold candidateRule
    rcases habs with habs | habs
    · rw [if_pos (Or.inl (supportGet_absent habs))]
    · rw [if_pos (Or.inr (supportGet_absent habs))]
  · intro l metric th fs ant r hfs hcard hant hr
    exact mem_assocRules_of_candidate hfs hcard hant hr

theorem lookup_miss_skips_candidate_witness :
    candidateRule (supportGet wFreq) "lift" 1 (1/4) {"A","C"} {"A"} = none ∧
      (⟨{"A"}, {"B"}, 1/2, 1, 2, 1/4, 999⟩ : Rule) ∈ associationRules wFreq "lift" 1 := by
  constructor
  · exact lookup_miss_skips_candidate.1 wFreq "lift" 1 (1/4) {"A","C"} {"A"}
      (Or.inr (by decide))
  · exact lookup_miss_skips_candidate.2 wFreq "lift" 1 ⟨1/2, {"A","B"}⟩ {"A"} _
      (by simp [wFreq]) (by decide) (by decide) wcr

theorem fpgrowth_support_floor_witness :
    (({"a"} : Finset Item), 1) ∈ fpgrowthRaw [["a"]] 1 ∧
      minCountOf 1 (List.length ([["a"]] : List (List Item))) ≤ 1 := by
  have hmc : minCountOf 1 (List.length ([["a"]] : List (List Item))) = 1 := by
    norm_num [minCountOf, pyInt]
  have hmem : (({"a"} : Finset Item), 1) ∈ fpgrowthRaw [["a"]] 1 := by
    unfold fpgrowthRaw
    rw [hmc]
    decide
  exact ⟨hmem, le_of_le_of_eq (fpgrowth_support_floor.1 [["a"]] 1 _ hmem) rfl⟩

theorem candidateRule_some_spec {smap : Finset Item → ℚ} {metric : String}
    {th ruleS : ℚ} {iset ant : Finset Item} {r : Rule}
    (h : candidateRule smap metric th ruleS iset ant = some r) :
    r = { antecedents := ant
        , consequents := iset \ ant
        , support := roundQ 6 ruleS
        , confidence := roundQ 6 (ruleS / smap ant)
        , lift := roundQ 6 (ruleS / smap ant / smap (iset \ ant))
        , leverage := roundQ 6 (ruleS - smap ant * smap (iset \ ant))
        , conviction := roundQ 4 (cap999 (if ruleS / smap ant < 1 then
            some ((1 - smap (iset \ ant)) / (1 - ruleS / smap ant + convEps))
          else none)) } ∧
      smap ant ≠ 0 ∧ smap (iset \ ant) ≠ 0 := by
  simp only [candidateRule] at h
  by_cases h1 : smap ant = 0 ∨ smap (iset \ ant) = 0
  · rw [if_pos h1] at h
    exact absurd h (by simp)
  · rw [if_neg h1] at h
    push_neg at h1
    by_cases h2 : th ≤ (if metric = "confidence" then ruleS / smap ant
        else ruleS / smap ant / smap (iset \ ant))
    · rw [if_pos h2] at h
      exact ⟨(Option.some.inj h).symm, h1.1, h1.2⟩
    · rw [if_neg h2] at h
      exact absurd h (by simp)

theorem combosLen_spec {α : Type} :
    ∀ (l : List α) (k : ℕ) (m : List α),
      m ∈ combosLen k l → m.Sublist l ∧ m.length = k := by
  intro l
  induction l with
  | nil =>
    intro k m hm
    cases k with
    | zero =>
      simp only [combosLen, List.mem_singleton] at hm
      subst hm
      exact ⟨List.Sublist.refl _, rfl⟩
    | succ k => simp [combosLen] at hm
  | cons a l ih =>
    intro k m hm
    cases k with
    | zero =>
      simp only [combosLen, List.mem_singleton] at hm
      subst hm
      exact ⟨List.nil_sublist _, rfl⟩
    | succ k =>
      simp only [combosLen, List.mem_append] at hm
      rcases hm with hm | hm
      · rcases List.mem_map.mp hm with ⟨m2, hm2, rfl⟩
        rcases ih k m2 hm2 with ⟨hsub, hlen⟩
        exact ⟨hsub.cons₂ a, by simp [hlen]⟩
      · rcases ih (k+1) m hm with ⟨hsub, hlen⟩
        exact ⟨hsub.cons a, hlen⟩

theorem mem_candidateAnts {iset ant : Finset Item} (h : ant ∈ candidateAnts iset) :
    ant ⊆ iset ∧ 1 ≤ ant.card ∧ ant.card < iset.card := by
  unfold candidateAnts at h
  rcases List.mem_flatMap.mp h with ⟨size, hsize, hm⟩
  rcases List.mem_map.mp hm with ⟨m, hmc, rfl⟩
  have hs := combosLen_spec (sortedElems iset) size m hmc
  have hnd : m.Nodup := (nodup_sortedElems iset).sublist hs.1
  have hsub : m.toFinset ⊆ iset := by
    intro x hx
    rw [List.mem_toFinset] at hx
    exact mem_sortedElems.mp (hs.1.subset hx)
  have hcard : m.toFinset.card = size := by
    rw [List.toFinset_card_of_nodup hnd, hs.2]
  have hrange := List.mem_range'_1.mp hsize
  have hlen : (sortedElems iset).length = iset.card := length_sortedElems iset
  refine ⟨hsub, ?_, ?_⟩
  · rw [hcard]
    exact hrange.1
  · rw [hcard]
    omega

/-- C5: every rule emitted by `association_rules` has a nonempty
antecedent, a nonempty consequent, the two are disjoint, and their union is
one of the input frequent itemsets, of size at least two. -/
theorem rule_parts_wellformed :
    ∀ (l : List FreqIS) (metric : String) (th : ℚ) (r : Rule),
      r ∈ associationRules l metric th →
      r.antecedents ≠ ∅ ∧ r.consequents ≠ ∅ ∧
        Disjoint r.antecedents r.consequents ∧
        ∃ fs ∈ l, fs.itemsets = r.antecedents ∪ r.consequents ∧
          2 ≤ fs.itemsets.card := by
  intro l metric th r hr
  unfold associationRules at hr
  rw [mem_sortRulesByLift] at hr
  rcases List.mem_flatMap.mp hr with ⟨fs, hfs, hrf⟩
  by_cases hcard : fs.itemsets.card < 2
  · rw [if_pos hcard] at hrf
    simp at hrf
  · rw [if_neg hcard] at hrf
    rcases List.mem_filterMap.mp hrf with ⟨ant, hant, hsome⟩
    rcases mem_candidateAnts hant with ⟨hsub, hge1, hlt⟩
    rcases candidateRule_some_spec hsome with ⟨rfl, -, -⟩
    refine ⟨?_, ?_, Finset.disjoint_sdiff, ⟨fs, hfs, ?_, not_lt.mp hcard⟩⟩
    · exact Finset.nonempty_iff_ne_empty.mp (Finset.card_pos.mp hge1)
    · have hc2 : 1 ≤ (fs.itemsets \ ant).card := by
        rw [Finset.card_sdiff hsub]
        omega
      exact Finset.nonempty_iff_ne_empty.mp (Finset.card_pos.mp hc2)
    · exact (Finset.union_sdiff_of_subset hsub).symm

theorem rule_parts_wellformed_witness :
    (⟨{"A"}, {"B"}, 1/2, 1, 2, 1/4, 999⟩ : Rule).antecedents ≠ ∅ ∧
    (⟨{"A"}, {"B"}, 1/2, 1, 2, 1/4, 999⟩ : Rule).consequents ≠ ∅ ∧
    Disjoint (⟨{"A"}, {"B"}, 1/2, 1, 2, 1/4, 999⟩ : Rule).antecedents
      (⟨{"A"}, {"B"}, 1/2, 1, 2, 1/4, 999⟩ : Rule).consequents ∧
    ∃ fs ∈ wFreq, fs.itemsets =
        (⟨{"A"}, {"B"}, 1/2, 1, 2, 1/4, 999⟩ : Rule).antecedents ∪
          (⟨{"A"}, {"B"}, 1/2, 1, 2, 1/4, 999⟩ : Rule).consequents ∧
      2 ≤ fs.itemsets.card :=
  rule_parts_wellformed wFreq "lift" 1 _
    (@mem_assocRules_of_candidate wFreq "lift" 1 ⟨1/2, {"A","B"}⟩ {"A"} _
      (by simp [wFreq]) (by decide) (by decide) wcr)

/-- C4 (amended): the stored conviction never exceeds the sentinel 999 (in
particular it is never an infinite value); on the branch with confidence
at least 1 it is exactly the capped sentinel 999; and on the branch with
confidence below 1 it is the 4-place rounding of
min((1 − supp(cons)) / (1 − confidence + 1e-10), 999) — the epsilon and the
rounding make it differ, in general, from the exact quotient
(1 − supp(cons)) / (1 − confidence). -/
theorem conviction_capped :
    (∀ (l : List FreqIS) (metric : String) (th : ℚ) (r : Rule),
        r ∈ associationRules l metric th → r.conviction ≤ 999) ∧
    (∀ (smap : Finset Item → ℚ) (metric : String) (th ruleS : ℚ)
        (iset ant : Finset Item) (r : Rule),
        candidateRule smap metric th ruleS iset ant = some r →
        (ruleS / smap ant < 1 →
          r.conviction = roundQ 4
            (min ((1 - smap (iset \ ant)) / (1 - ruleS / smap ant + convEps)) 999)) ∧
        (1 ≤ ruleS / smap ant → r.conviction = 999)) := by
  have hcap : ∀ o : Option ℚ, cap999 o ≤ ((999 : ℤ) : ℚ) := by
    intro o
    cases o with
    | none => norm_num [cap999]
    | some c =>
      have := min_le_right c (999 : ℚ)
      calc cap999 (some c) ≤ (999 : ℚ) := this
      _ = ((999 : ℤ) : ℚ) := by norm_num
  have h999 : roundQ 4 (999 : ℚ) = 999 := by
    norm_num [roundQ, roundHalfEven]
  constructor
  · intro l metric th r hr
    unfold associationRules at hr
    rw [mem_sortRulesByLift] at hr
    rcases List.mem_flatMap.mp hr with ⟨fs, hfs, hrf⟩
    by_cases hcard : fs.itemsets.card < 2
    · rw [if_pos hcard] at hrf
      simp at hrf
    · rw [if_neg hcard] at hrf
      rcases List.mem_filterMap.mp hrf with ⟨ant, hant, hsome⟩
      rcases candidateRule_some_spec hsome with ⟨rfl, -, -⟩
      have hle := roundQ_le_of_le (k := 4) (hcap
        (if fs.support / supportGet l ant < 1 then
          some ((1 - supportGet l (fs.itemsets \ ant)) /
            (1 - fs.support / supportGet l ant + convEps))
        else none))
      calc roundQ 4 (cap999 _) ≤ ((999 : ℤ) : ℚ) := hle
      _ = (999 : ℚ) := by norm_num
  · intro smap metric th ruleS iset ant r h
    rcases candidateRule_some_spec h with ⟨rfl, -, -⟩
    constructor
    · intro hc
      show roundQ 4 (cap999 _) = _
      rw [if_pos hc]
      rfl
    · intro hc
      show roundQ 4 (cap999 _) = _
      rw [if_neg (not_lt.mpr hc)]
      exact h999

theorem conviction_capped_witness :
    (⟨{"A"}, {"B"}, 1/2, 1, 2, 1/4, 999⟩ : Rule).conviction ≤ 999 ∧
    (⟨{"A"}, {"B"}, 1/2, 1, 2, 1/4, 999⟩ : Rule).conviction = 999 := by
  constructor
  · exact conviction_capped.1 wFreq "lift" 1 _
      (@mem_assocRules_of_candidate wFreq "lift" 1 ⟨1/2, {"A","B"}⟩ {"A"} _
        (by simp [wFreq]) (by decide) (by decide) wcr)
  · refine (conviction_capped.2 (supportGet wFreq) "lift" 1 (1/2)
      {"A","B"} {"A"} _ wcr).2 ?_
    rw [wsgA]
    norm_num

/-! ### Concrete data refuting the exact conviction formula (C4) -/

/-- Counterexample input: the A→B split of AB has confidence 1/7, whose
conviction quotient is not representable in 4 decimal places. -/
def cFreq : List FreqIS := [⟨7/10, {"A"}⟩, ⟨1/2, {"B"}⟩, ⟨1/10, {"A","B"}⟩]

theorem csgA : supportGet cFreq {"A"} = 7/10 := by
  have h2 : ¬(({"B"} : Finset Item) = {"A"}) := by decide
  have h3 : ¬(({"A","B"} : Finset Item) = {"A"}) := by decide
  norm_num [cFreq, supportGet, List.foldl, h2, h3]

theorem csgB : supportGet cFreq {"B"} = 1/2 := by
  have h1 : ¬(({"A"} : Finset Item) = {"B"}) := by decide
  have h3 : ¬(({"A","B"} : Finset Item) = {"B"}) := by decide
  norm_num [cFreq, supportGet, List.foldl, h1, h3]

theorem csgAB : supportGet cFreq {"A","B"} = 1/10 := by
  have h1 : ¬(({"A"} : Finset Item) = {"A","B"}) := by decide
  have h2 : ¬(({"B"} : Finset Item) = {"A","B"}) := by decide
  norm_num [cFreq, supportGet, List.foldl, h1, h2]

theorem cconv_floor :
    roundQ 4 ((35000000000 : ℚ) / 60000000007) = 5833 / 10000 := by
  have hfl : (⌊(35000000000 : ℚ) / 60000000007 * 10 ^ 4⌋ : ℤ) = 5833 := by
    rw [Int.floor_eq_iff]
    norm_num
  unfold roundQ roundHalfEven
  rw [hfl]
  norm_num

theorem ccr : candidateRule (supportGet cFreq) "lift" (1/10) (1/10) {"A","B"} {"A"} =
    some ⟨{"A"}, {"B"}, 1/10, 142857/1000000, 285714/1000000, -(1/4), 5833/10000⟩ := by
  have hd : ({"A","B"} : Finset Item) \ {"A"} = {"B"} := by decide
  have hm : ¬(("lift" : String) = "confidence") := by decide
  have hmin : min ((1 - (1/2 : ℚ)) / (1 - (1/10 : ℚ) / (7/10) + convEps)) 999 =
      (35000000000 : ℚ) / 60000000007 := by
    rw [convEps, min_def]
    norm_num
  have hconf : roundQ 6 ((1/10 : ℚ) / (7/10)) = 142857/1000000 := by
    have hfl : (⌊(1/7 : ℚ) * 10 ^ 6⌋ : ℤ) = 142857 := by
      rw [Int.floor_eq_iff]
      norm_num
    have h17 : (1/10 : ℚ) / (7/10) = 1/7 := by norm_num
    rw [h17]
    unfold roundQ roundHalfEven
    rw [hfl]
    norm_num
  have hlift : roundQ 6 ((1/10 : ℚ) / (7/10) / (1/2)) = 285714/1000000 := by
    have hfl : (⌊(2/7 : ℚ) * 10 ^ 6⌋ : ℤ) = 285714 := by
      rw [Int.floor_eq_iff]
      norm_num
    have h27 : (1/10 : ℚ) / (7/10) / (1/2) = 2/7 := by norm_num
    rw [h27]
    unfold roundQ roundHalfEven
    rw [hfl]
    norm_num
  norm_num [candidateRule, hd, hm, csgA, csgB, hconf, hlift, hmin, cconv_floor,
    roundQ, roundHalfEven, cap999, convEps, Rule.mk.injEq]

/-- C4 counterexample: in the run on `cFreq` with metric lift and threshold
1/10, the emitted rule A→B has confidence below 1 but its stored conviction
(0.5833, the 4-place rounding of the epsilon-perturbed quotient) differs
from (1 − support(consequent)) / (1 − confidence), whether confidence is
read as the stored rounded field or as the exact support ratio. -/
theorem conviction_formula_counterexample :
    ∃ r ∈ associationRules cFreq "lift" (1/10),
      r.confidence < 1 ∧
      r.conviction ≠ (1 - supportGet cFreq r.consequents) / (1 - r.confidence) ∧
      r.conviction ≠ (1 - supportGet cFreq r.consequents) /
        (1 - supportGet cFreq (r.antecedents ∪ r.consequents) /
          supportGet cFreq r.antecedents) := by
  refine ⟨⟨{"A"}, {"B"}, 1/10, 142857/1000000, 285714/1000000, -(1/4), 5833/10000⟩,
    @mem_assocRules_of_candidate cFreq "lift" (1/10) ⟨1/10, {"A","B"}⟩ {"A"} _
      (by simp [cFreq]) (by decide) (by decide) ccr, ?_, ?_, ?_⟩
  · norm_num
  · rw [(by rfl :
      (⟨{"A"}, {"B"}, 1/10, 142857/1000000, 285714/1000000, -(1/4), 5833/10000⟩
        : Rule).consequents = {"B"}), csgB]
    norm_num
  · rw [(by rfl :
      (⟨{"A"}, {"B"}, 1/10, 142857/1000000, 285714/1000000, -(1/4), 5833/10000⟩
        : Rule).consequents = {"B"}), (by rfl :
      (⟨{"A"}, {"B"}, 1/10, 142857/1000000, 285714/1000000, -(1/4), 5833/10000⟩
        : Rule).antecedents = {"A"}),
      (by decide : ({"A"} : Finset Item) ∪ {"B"} = {"A","B"}), csgB, csgAB, csgA]
    norm_num

/-! ### Helper lemmas: recommendation matcher -/

theorem ruleCandidates_row_spec {B : Finset Item} {mc ml : ℚ} {r : RRule} {c : RecRow}
    (hc : c ∈ ruleCandidates B mc ml r) :
    r.antecedents ⊆ B ∧ mc ≤ r.confidence ∧ ml ≤ r.lift ∧
      c.product ∈ r.consequents ∧ c.product ∉ B ∧ c.lift = roundQ 4 r.lift := by
  unfold ruleCandidates at hc
  by_cases h1 : r.antecedents ⊆ B
  · rw [if_pos h1] at hc
    by_cases h2 : r.confidence < mc ∨ r.lift < ml
    · rw [if_pos h2] at hc
      simp at hc
    · rw [if_neg h2] at hc
      push_neg at h2
      rcases List.mem_filterMap.mp hc with ⟨p, hp, hsome⟩
      by_cases hpB : p ∈ B
      · rw [if_pos hpB] at hsome
        exact absurd hsome (by simp)
      · rw [if_neg hpB] at hsome
        rcases Option.some.inj hsome with rfl
        exact ⟨h1, h2.1, h2.2, mem_sortedElems.mp hp, hpB, rfl⟩
  · rw [if_neg h1] at hc
    simp at hc

theorem mem_ruleCandidates_iff {B : Finset Item} {mc ml : ℚ} {r : RRule} {x : Item} :
    (∃ c ∈ ruleCandidates B mc ml r, c.product = x) ↔
      (r.antecedents ⊆ B ∧ mc ≤ r.confidence ∧ ml ≤ r.lift ∧
        x ∈ r.consequents ∧ x ∉ B) := by
  constructor
  · rintro ⟨c, hc, rfl⟩
    rcases ruleCandidates_row_spec hc with ⟨h1, h2, h3, h4, h5, -⟩
    exact ⟨h1, h2, h3, h4, h5⟩
  · rintro ⟨h1, h2, h3, hx, hxB⟩
    refine ⟨{ product := x
            , confidence := roundQ 4 r.confidence
            , lift := roundQ 4 r.lift
            , support := roundQ 4 r.support
            , based_on := String.intercalate ", " (sortedElems r.antecedents) },
      ?_, rfl⟩
    unfold ruleCandidates
    rw [if_pos h1, if_neg (by push_neg; exact ⟨h2, h3⟩ :
      ¬(r.confidence < mc ∨ r.lift < ml))]
    exact List.mem_filterMap.mpr ⟨x, mem_sortedElems.mpr hx, by rw [if_neg hxB]⟩

theorem mem_recommend_decomp {rules : List RRule} {inputItems : List String}
    {topN : ℕ} {mc ml : ℚ} {c : RecRow}
    (hc : c ∈ recommend rules inputItems topN mc ml) :
    ∃ r ∈ rules, c ∈ ruleCandidates (normBasket inputItems) mc ml r := by
  simp only [recommend] at hc
  by_cases h1 : rules.isEmpty
  · rw [if_pos h1] at hc
    simp at hc
  · rw [if_neg h1] at hc
    by_cases h2 : (rules.flatMap (ruleCandidates (normBasket inputItems) mc ml)).isEmpty
    · rw [if_pos h2] at hc
      simp at hc
    · rw [if_neg h2] at hc
      have hdd := List.mem_of_mem_take hc
      have hsorted := dedupByKeyAux_subset hdd
      have hres := mem_pySort.mp hsorted
      exact List.mem_flatMap.mp hres

theorem recRowLe_total : ∀ a b : RecRow,
    (decide (b.lift ≤ a.lift)) = true ∨ (decide (a.lift ≤ b.lift)) = true := by
  intro a b
  rcases le_total b.lift a.lift with h | h
  · exact Or.inl (decide_eq_true h)
  · exact Or.inr (decide_eq_true h)

theorem recRowLe_trans : ∀ {a b c : RecRow},
    decide (b.lift ≤ a.lift) = true → decide (c.lift ≤ b.lift) = true →
      decide (c.lift ≤ a.lift) = true := by
  intro a b c hab hbc
  simp only [decide_eq_true_eq] at hab hbc ⊢
  exact le_trans hbc hab

/-- C1: the matcher contract of `recommend`.  Part 1: a rule contributes a
candidate naming item x iff its antecedent is a subset of the normalised
basket, its confidence and lift meet the live filters, and x is a
consequent item outside the basket.  Part 2: every returned row names an
item outside the normalised basket.  Part 3: at most one row per item.
Part 4: a returned row comes from a firing rule whose (4-dp rounded) lift
it carries, and that lift is maximal among all firing rules proposing the
same item. -/
theorem recommend_matcher_contract :
    ∀ (rules : List RRule) (inputItems : List String) (topN : ℕ) (mc ml : ℚ),
      (∀ (r : RRule) (x : Item),
        (∃ c ∈ ruleCandidates (normBasket inputItems) mc ml r, c.product = x) ↔
          (r.antecedents ⊆ normBasket inputItems ∧ mc ≤ r.confidence ∧
            ml ≤ r.lift ∧ x ∈ r.consequents ∧ x ∉ normBasket inputItems)) ∧
      (∀ c ∈ recommend rules inputItems topN mc ml,
        c.product ∉ normBasket inputItems) ∧
      (recommend rules inputItems topN mc ml).Pairwise
        (fun a b => a.product ≠ b.product) ∧
      (∀ c ∈ recommend rules inputItems topN mc ml,
        ∃ r ∈ rules, c ∈ ruleCandidates (normBasket inputItems) mc ml r ∧
          c.lift = roundQ 4 r.lift ∧
          ∀ r2 ∈ rules, r2.antecedents ⊆ normBasket inputItems →
            mc ≤ r2.confidence → ml ≤ r2.lift → c.product ∈ r2.consequents →
            roundQ 4 r2.lift ≤ c.lift) := by
  intro rules inputItems topN mc ml
  refine ⟨fun r x => mem_ruleCandidates_iff, ?_, ?_, ?_⟩
  · intro c hc
    rcases mem_recommend_decomp hc with ⟨r, -, hcr⟩
    exact (ruleCandidates_row_spec hcr).2.2.2.2.1
  · simp only [recommend]
    by_cases h1 : rules.isEmpty
    · rw [if_pos h1]
      exact List.Pairwise.nil
    · rw [if_neg h1]
      by_cases h2 : (rules.flatMap (ruleCandidates (normBasket inputItems) mc ml)).isEmpty
      · rw [if_pos h2]
        exact List.Pairwise.nil
      · rw [if_neg h2]
        exact List.Pairwise.sublist (List.take_sublist _ _) pairwise_key_dedupByKeyAux
  · intro c hc
    rcases mem_recommend_decomp hc with ⟨r, hr, hcr⟩
    have hspec := ruleCandidates_row_spec hcr
    refine ⟨r, hr, hcr, hspec.2.2.2.2.2, ?_⟩
    intro r2 hr2 hsub2 hconf2 hlift2 hprop2
    by_cases hxB : c.product ∈ normBasket inputItems
    · exact absurd hxB hspec.2.2.2.2.1
    · rcases mem_ruleCandidates_iff.mpr ⟨hsub2, hconf2, hlift2, hprop2, hxB⟩ with
        ⟨c2, hc2, hc2p⟩
      have hc2lift : c2.lift = roundQ 4 r2.lift :=
        (ruleCandidates_row_spec hc2).2.2.2.2.2
      -- locate c in the deduplicated sorted list and compare with c2
      simp only [recommend] at hc
      by_cases h1 : rules.isEmpty
      · rw [if_pos h1] at hc
        simp at hc
      · rw [if_neg h1] at hc
        by_cases h2 : (rules.flatMap
            (ruleCandidates (normBasket inputItems) mc ml)).isEmpty
        · rw [if_pos h2] at hc
          simp at hc
        · rw [if_neg h2] at hc
          have hdd := List.mem_of_mem_take hc
          have hpair := pairwise_pySort recRowLe_total recRowLe_trans
            (rules.flatMap (ruleCandidates (normBasket inputItems) mc ml))
          have hc2sorted : c2 ∈ pySort (fun a b : RecRow => decide (b.lift ≤ a.lift))
              (rules.flatMap (ruleCandidates (normBasket inputItems) mc ml)) :=
            mem_pySort.mpr (List.mem_flatMap.mpr ⟨r2, hr2, hc2⟩)
          have hbest := best_of_dedupByKeyAux
            (R := fun a b : RecRow => decide (b.lift ≤ a.lift) = true)
            (fun a => by simp) hpair hdd hc2sorted hc2p
          simp only [decide_eq_true_eq] at hbest
          rw [← hc2lift]
          exact hbest

/-- C7: `recommend` returns the empty result, not an exception, on every
normal no-recommendation outcome: an empty rule set, and more generally any
run in which no rule both fires and survives the live filters with a
consequent item outside the basket (i.e. the candidate list is empty). -/
theorem recommend_empty_result_ok :
    (∀ (inputItems : List String) (topN : ℕ) (mc ml : ℚ),
        recommend [] inputItems topN mc ml = []) ∧
    (∀ (rules : List RRule) (inputItems : List String) (topN : ℕ) (mc ml : ℚ),
        rules.flatMap (ruleCandidates (normBasket inputItems) mc ml) = [] →
        recommend rules inputItems topN mc ml = []) := by
  constructor
  · intro inp n mc ml
    simp [recommend]
  · intro rules inp n mc ml h
    simp only [recommend]
    by_cases he : rules.isEmpty
    · rw [if_pos he]
    · rw [if_neg he, h]
      rfl

theorem recommend_empty_result_ok_witness :
    recommend [] ["Bread"] 5 0 1 = [] ∧
      recommend [⟨{"A"}, {"B"}, 1/2, 1, 1⟩] ["a","b"] 3 0 1 = [] := by
  refine ⟨recommend_empty_result_ok.1 ["Bread"] 5 0 1, ?_⟩
  refine recommend_empty_result_ok.2 _ _ _ _ _ ?_
  have hsub : ({"A"} : Finset Item) ⊆ normBasket ["a","b"] := by decide
  have hmem : ("B" : Item) ∈ normBasket ["a","b"] := by decide
  have hse : sortedElems ({"B"} : Finset Item) = ["B"] := by decide
  norm_num [ruleCandidates, hsub, hmem, hse]

theorem recommend_matcher_contract_witness :
    (⟨"B", 1, 2, 1/2, "A"⟩ : RecRow).product ∉ normBasket ["a"] ∧
      (recommend [⟨{"A"}, {"B"}, 1/2, 1, 2⟩] ["a"] 5 0 1).Pairwise
        (fun a b => a.product ≠ b.product) ∧
      (∃ c ∈ ruleCandidates (normBasket ["a"]) 0 1 ⟨{"A"}, {"B"}, 1/2, 1, 2⟩,
        c.product = "B") := by
  have hsub : ({"A"} : Finset Item) ⊆ normBasket ["a"] := by decide
  have hnm : ¬(("B" : Item) ∈ normBasket ["a"]) := by decide
  have hse : sortedElems ({"B"} : Finset Item) = ["B"] := by decide
  have hba : String.intercalate ", " (sortedElems ({"A"} : Finset Item)) = "A" := by
    decide
  have h1 : roundQ 4 (1:ℚ) = 1 := by norm_num [roundQ, roundHalfEven]
  have h2 : roundQ 4 (2:ℚ) = 2 := by norm_num [roundQ, roundHalfEven]
  have h12 : roundQ 4 (1/2:ℚ) = 1/2 := by norm_num [roundQ, roundHalfEven]
  have hrec : recommend [⟨{"A"}, {"B"}, 1/2, 1, 2⟩] ["a"] 5 0 1 =
      [⟨"B", 1, 2, 1/2, "A"⟩] := by
    norm_num [recommend, ruleCandidates, hsub, hnm, hse, hba, h1, h2, h12,
      pySort, insertLe, dedupByKey, dedupByKeyAux]
    simp
  refine ⟨?_, ?_, ?_⟩
  · exact (recommend_matcher_contract [⟨{"A"}, {"B"}, 1/2, 1, 2⟩] ["a"] 5 0 1).2.1 _
      (by rw [hrec]; exact List.mem_cons_self _ _)
  · exact (recommend_matcher_contract [⟨{"A"}, {"B"}, 1/2, 1, 2⟩] ["a"] 5 0 1).2.2.1
  · exact (recommend_matcher_contract [⟨{"A"}, {"B"}, 1/2, 1, 2⟩] ["a"] 5 0 1).1
      ⟨{"A"}, {"B"}, 1/2, 1, 2⟩ "B" |>.mpr
      ⟨hsub, by norm_num, by norm_num, by decide, hnm⟩

/-- C3: duplicates inside one basket do NOT collapse to presence/absence in
the code: on the single basket [a, a] with min_support 1 the engine counts
the duplicate occurrence (the path a→a is inserted), emits the itemset {a}
twice with counts 2 and 1, and reports the impossible support fraction 2.0,
whereas the duplicate-free basket [a] yields {a} once with support 1.0.
The claim (and the data model of the spec, which the cleaning stage
enforces upstream via drop_duplicates) says the two runs must agree. -/
theorem dedup_changes_fpgrowth :
    fpgrowth [["a","a"]] 1 2 = [(2, {"a"}), (1, {"a"})] ∧
    fpgrowth [["a"]] 1 2 = [(1, {"a"})] ∧
    (fpgrowth [["a","a"]] 1 2).toFinset ≠ (fpgrowth [["a"]] 1 2).toFinset := by
  have hr2 : roundQ 6 ((2:ℚ)) = 2 := by norm_num [roundQ, roundHalfEven]
  have hr1 : roundQ 6 ((1:ℚ)) = 1 := by norm_num [roundQ, roundHalfEven]
  have hcard : ({"a"} : Finset Item).card ≤ 2 := by decide
  have h1 : fpgrowth [["a","a"]] 1 2 = [(2, {"a"}), (1, {"a"})] := by
    have hmc : minCountOf 1 (List.length ([["a","a"]] : List (List Item))) = 1 := by
      norm_num [minCountOf, pyInt]
    have hraw : fpgrowthRaw [["a","a"]] 1 = [({"a"}, 2), ({"a"}, 1)] := by
      unfold fpgrowthRaw
      rw [hmc]
      decide
    unfold fpgrowth
    rw [hraw]
    norm_num [List.filterMap, hcard, hr2, hr1]
  have h2 : fpgrowth [["a"]] 1 2 = [(1, {"a"})] := by
    have hmc : minCountOf 1 (List.length ([["a"]] : List (List Item))) = 1 := by
      norm_num [minCountOf, pyInt]
    have hraw : fpgrowthRaw [["a"]] 1 = [({"a"}, 1)] := by
      unfold fpgrowthRaw
      rw [hmc]
      decide
    unfold fpgrowth
    rw [hraw]
    norm_num [List.filterMap, hcard, hr1]
  refine ⟨h1, h2, ?_⟩
  rw [h1, h2]
  intro hcon
  have hmem : ((2:ℚ), ({"a"} : Finset Item)) ∈
      ([(1, {"a"})] : List (ℚ × Finset Item)).toFinset := by
    rw [← hcon]
    simp
  rw [List.mem_toFinset, List.mem_singleton, Prod.mk.injEq] at hmem
  have : (2:ℚ) = 1 := hmem.1
  norm_num at this

/-! ### Order-invariance of the built tree (toward C6)

The quantities the miner reads from a built tree — per-item chain support,
the multiset of expanded conditional transactions, the header item set and
root emptiness — are determined by the multiset of processed transactions.
The lemmas go per `bump`, then per `insertTxn`, then per build fold. -/

/-- Conditional-transaction multiset of a tree, per conditioning item. -/
def expCond (i : Item) (T : RTree) : Multiset (List Item) :=
  (expandPatterns (condBase i T) : Multiset (List Item))

/-- Contribution of one bumped key to the chain support of `i`. -/
def supDelta (i : Item) (p : List Item) : ℕ :=
  if p.head? = some i then 1 else 0

/-- Contribution of one bumped key to the conditional transactions of `i`. -/
def condDelta (i : Item) (p : List Item) : Multiset (List Item) :=
  match p with
  | [] => 0
  | j :: rest => if j = i then (if rest.isEmpty then 0 else {rest.reverse}) else 0

/-- Per-entry contribution to the conditional transactions of `i`. -/
def entryCond (i : Item) (pc : List Item × ℕ) : Multiset (List Item) :=
  match pc.1 with
  | [] => 0
  | j :: rest =>
    if j = i then (if rest.isEmpty then 0 else Multiset.replicate pc.2 rest.reverse)
    else 0

theorem chainNodes_cons (i : Item) (pc : List Item × ℕ) (T : RTree) :
    chainNodes i (pc :: T) =
      if pc.1.head? = some i then pc :: chainNodes i T else chainNodes i T := by
  simp only [chainNodes, List.filter_cons]
  by_cases h : pc.1.head? = some i
  · simp [h]
  · simp [h]

theorem chainSupport_nil (i : Item) : chainSupport i [] = 0 := rfl

theorem chainSupport_cons (i : Item) (pc : List Item × ℕ) (T : RTree) :
    chainSupport i (pc :: T) =
      (if pc.1.head? = some i then pc.2 else 0) + chainSupport i T := by
  simp only [chainSupport, chainNodes_cons]
  by_cases h : pc.1.head? = some i
  · simp [h]
  · simp [h]

theorem expCond_nil (i : Item) : expCond i [] = 0 := rfl

theorem expCond_cons (i : Item) (pc : List Item × ℕ) (T : RTree) :
    expCond i (pc :: T) = entryCond i pc + expCond i T := by
  simp only [expCond, condBase, chainNodes_cons]
  by_cases h : pc.1.head? = some i
  · rw [if_pos h]
    rcases pc with ⟨p, c⟩
    cases p with
    | nil => simp at h
    | cons j rest =>
      simp only [List.head?_cons, Option.some.injEq] at h
      subst h
      by_cases hre : rest.isEmpty
      · rw [List.filterMap_cons]
        simp only [hre, if_pos, if_true]
        simp [entryCond, hre]
      · rw [List.filterMap_cons]
        simp only [hre, if_neg, if_false, Bool.false_eq_true]
        simp only [expandPatterns, List.flatMap_cons]
        rw [← Multiset.coe_add]
        simp [entryCond, hre, Multiset.coe_replicate]
  · rw [if_neg h]
    rcases pc with ⟨p, c⟩
    cases p with
    | nil => simp [entryCond]
    | cons j rest =>
      simp only [List.head?_cons, Option.some.injEq] at h
      simp [entryCond, h]

theorem chainSupport_bump (i : Item) (p : List Item) :
    ∀ T : RTree, chainSupport i (bump p T) = chainSupport i T + supDelta i p := by
  intro T
  induction T with
  | nil =>
    simp only [bump, chainSupport_cons, chainSupport_nil, supDelta]
    by_cases h : p.head? = some i
    · simp [h]
    · simp [h]
  | cons qc rest ih =>
    simp only [bump]
    by_cases hq : qc.1 = p
    · rw [if_pos hq]
      rw [chainSupport_cons, chainSupport_cons]
      simp only [hq, supDelta]
      by_cases h : p.head? = some i
      · simp only [h, if_pos]
        omega
      · simp only [h, if_neg, if_false]
        omega
    · rw [if_neg hq]
      rw [chainSupport_cons, chainSupport_cons, ih]
      omega

theorem entryCond_bump_count (i : Item) (q : List Item) (c : ℕ) :
    entryCond i (q, c + 1) = entryCond i (q, c) + condDelta i q := by
  cases q with
  | nil => simp [entryCond, condDelta]
  | cons j r2 =>
    simp only [entryCond, condDelta]
    by_cases hj : j = i
    · by_cases hre : r2.isEmpty
      · simp [hj, hre]
      · simp only [hj, hre, if_pos, if_neg, if_false, if_true, Bool.false_eq_true]
        rw [Multiset.replicate_succ]
        rw [add_comm (Multiset.replicate c r2.reverse) {r2.reverse}]
        rfl
    · simp [hj]

theorem expCond_bump (i : Item) (p : List Item) :
    ∀ T : RTree, expCond i (bump p T) = expCond i T + condDelta i p := by
  intro T
  induction T with
  | nil =>
    simp only [bump, expCond_cons, expCond_nil, add_zero]
    cases p with
    | nil => simp [entryCond, condDelta]
    | cons j rest =>
      simp only [entryCond, condDelta]
      by_cases hj : j = i
      · by_cases hre : rest.isEmpty
        · simp [hj, hre]
        · simp [hj, hre, Multiset.replicate_one]
      · simp [hj]
  | cons qc rest ih =>
    simp only [bump]
    rcases qc with ⟨q, c⟩
    by_cases hq : q = p
    · subst hq
      rw [if_pos rfl]
      rw [expCond_cons, expCond_cons]
      rw [entryCond_bump_count]
      rw [add_right_comm]
    · rw [if_neg (by simpa using hq)]
      rw [expCond_cons, expCond_cons, ih]
      rw [add_assoc]

theorem mem_dedupByKeyAux_id {α : Type} [DecidableEq α] :
    ∀ {seen : List α} {l : List α} {a : α},
      a ∈ dedupByKeyAux id seen l ↔ a ∈ l ∧ a ∉ seen := by
  intro seen l
  induction l generalizing seen with
  | nil => intro a; simp [dedupByKeyAux]
  | cons b bs ih =>
    intro a
    rw [dedupByKeyAux]
    by_cases hb : (id b : α) ∈ seen
    · rw [if_pos hb]
      rw [ih]
      constructor
      · rintro ⟨h1, h2⟩
        exact ⟨List.mem_cons_of_mem b h1, h2⟩
      · rintro ⟨h1, h2⟩
        rcases List.mem_cons.mp h1 with h3 | h3
        · rw [h3] at h2
          exact absurd hb h2
        · exact ⟨h3, h2⟩
    · rw [if_neg hb]
      constructor
      · intro h
        rcases List.mem_cons.mp h with h3 | h3
        · rw [h3]
          exact ⟨List.mem_cons_self _ _, hb⟩
        · rcases ih.mp h3 with ⟨h4, h5⟩
          exact ⟨List.mem_cons_of_mem b h4,
            fun hc => h5 (List.mem_cons_of_mem _ hc)⟩
      · rintro ⟨h1, h2⟩
        by_cases hab : a = b
        · rw [hab]
          exact List.mem_cons_self _ _
        · have h3 : a ∈ bs := by
            rcases List.mem_cons.mp h1 with h4 | h4
            · exact absurd h4 hab
            · exact h4
          refine List.mem_cons_of_mem _ (ih.mpr ⟨h3, fun hc => ?_⟩)
          rcases List.mem_cons.mp hc with h4 | h4
          · exact hab h4
          · exact h2 h4

theorem mem_headerItems {i : Item} {T : RTree} :
    i ∈ headerItems T ↔ ∃ pc ∈ T, pc.1.head? = some i := by
  unfold headerItems dedupByKey
  rw [mem_dedupByKeyAux_id]
  simp [List.mem_filterMap]

theorem mem_keys_bump {q p : List Item} :
    ∀ T : RTree, (∃ pc ∈ bump p T, pc.1 = q) ↔ (∃ pc ∈ T, pc.1 = q) ∨ q = p := by
  intro T
  induction T with
  | nil =>
    simp only [bump, List.mem_singleton]
    constructor
    · rintro ⟨pc, h1, h2⟩
      rw [h1] at h2
      exact Or.inr h2.symm
    · rintro (⟨pc, hpc, -⟩ | h)
      · simp at hpc
      · exact ⟨(p, 1), rfl, h.symm⟩
  | cons qc rest ih =>
    simp only [bump]
    by_cases hq : qc.1 = p
    · rw [if_pos hq]
      constructor
      · rintro ⟨pc, h1, h2⟩
        rcases List.mem_cons.mp h1 with h3 | h3
        · rw [h3] at h2
          exact Or.inl ⟨qc, List.mem_cons_self _ _, h2⟩
        · exact Or.inl ⟨pc, List.mem_cons_of_mem _ h3, h2⟩
      · rintro (⟨pc, hpc, h2⟩ | h)
        · rcases List.mem_cons.mp hpc with h3 | h3
          · refine ⟨(qc.1, qc.2 + 1), List.mem_cons_self _ _, ?_⟩
            rw [← h2, h3]
          · exact ⟨pc, List.mem_cons_of_mem _ h3, h2⟩
        · exact ⟨(qc.1, qc.2 + 1), List.mem_cons_self _ _, by rw [hq, ← h]⟩
    · rw [if_neg hq]
      constructor
      · rintro ⟨pc, h1, h2⟩
        rcases List.mem_cons.mp h1 with h3 | h3
        · rw [h3] at h2
          exact Or.inl ⟨qc, List.mem_cons_self _ _, h2⟩
        · rcases ih.mp ⟨pc, h3, h2⟩ with ⟨pc2, hpc2, h4⟩ | h4
          · exact Or.inl ⟨pc2, List.mem_cons_of_mem _ hpc2, h4⟩
          · exact Or.inr h4
      · rintro (⟨pc, hpc, h2⟩ | h)
        · rcases List.mem_cons.mp hpc with h3 | h3
          · refine ⟨qc, List.mem_cons_self _ _, ?_⟩
            rw [← h2, h3]
          · rcases ih.mpr (Or.inl ⟨pc, h3, h2⟩) with ⟨pc2, hpc2, h4⟩
            exact ⟨pc2, List.mem_cons_of_mem _ hpc2, h4⟩
        · rcases ih.mpr (Or.inr h) with ⟨pc2, hpc2, h4⟩
          exact ⟨pc2, List.mem_cons_of_mem _ hpc2, h4⟩

theorem mem_headerItems_bump {i : Item} {p : List Item} {T : RTree} :
    i ∈ headerItems (bump p T) ↔ i ∈ headerItems T ∨ p.head? = some i := by
  rw [mem_headerItems, mem_headerItems]
  constructor
  · rintro ⟨pc, hpc, hh⟩
    rcases (mem_keys_bump T).mp ⟨pc, hpc, rfl⟩ with ⟨pc2, hpc2, h3⟩ | heq
    · refine Or.inl ⟨pc2, hpc2, ?_⟩
      rw [h3]
      exact hh
    · refine Or.inr ?_
      rw [← heq]
      exact hh
  · rintro (⟨pc, hpc, hh⟩ | hp)
    · rcases (mem_keys_bump T).mpr (Or.inl ⟨pc, hpc, rfl⟩) with ⟨pc2, hpc2, h3⟩
      refine ⟨pc2, hpc2, ?_⟩
      rw [h3]
      exact hh
    · rcases (mem_keys_bump T).mpr (Or.inr rfl) with ⟨pc2, hpc2, h3⟩
      refine ⟨pc2, hpc2, ?_⟩
      rw [h3]
      exact hp

theorem isEmptyT_iff {T : RTree} :
    isEmptyT T = true ↔ ∀ pc ∈ T, pc.1.length ≠ 1 := by
  unfold isEmptyT
  rw [List.isEmpty_iff]
  rw [List.filter_eq_nil_iff]
  constructor
  · intro h pc hpc
    have := h pc hpc
    simpa using this
  · intro h pc hpc
    simpa using h pc hpc

theorem isEmptyT_bump {p : List Item} {T : RTree} :
    isEmptyT (bump p T) = true ↔ (isEmptyT T = true ∧ p.length ≠ 1) := by
  rw [isEmptyT_iff, isEmptyT_iff]
  constructor
  · intro h
    constructor
    · intro pc hpc
      rcases (mem_keys_bump T).mpr (Or.inl ⟨pc, hpc, rfl⟩) with ⟨pc2, hpc2, h3⟩
      have h4 := h pc2 hpc2
      rwa [h3] at h4
    · rcases (mem_keys_bump T).mpr (Or.inr rfl) with ⟨pc2, hpc2, h3⟩
      have h4 := h pc2 hpc2
      rwa [h3] at h4
  · rintro ⟨h1, h2⟩ pc hpc
    rcases (mem_keys_bump T).mp ⟨pc, hpc, rfl⟩ with ⟨pc2, hpc2, h3⟩ | heq
    · rw [← h3]
      exact h1 pc2 hpc2
    · rw [heq]
      exact h2

/-- Conditional-transaction contribution of inserting the remaining
sequence when the reversed consumed prefix is `acc`; mirrors the recursion
of `insertTxn`. -/
def condAcc (i : Item) : List Item → List Item → Multiset (List Item)
  | _, [] => 0
  | acc, j :: rest =>
    (if j = i then (if acc.isEmpty then 0 else {acc.reverse}) else 0)
      + condAcc i (j :: acc) rest

theorem chainSupport_insertTxn (i : Item) :
    ∀ (s acc : List Item) (T : RTree),
      chainSupport i (insertTxn acc s T) = chainSupport i T + s.count i := by
  intro s
  induction s with
  | nil =>
    intro acc T
    simp [insertTxn]
  | cons j rest ih =>
    intro acc T
    rw [insertTxn]
    rw [ih (j :: acc) (bump (j :: acc) T)]
    rw [chainSupport_bump]
    have hd : supDelta i (j :: acc) = if j = i then 1 else 0 := by
      simp [supDelta]
    have hc : (j :: rest).count i = rest.count i + (if j = i then 1 else 0) := by
      by_cases h : j = i
      · rw [h, List.count_cons_self, if_pos rfl]
      · rw [List.count_cons_of_ne (fun he => h he.symm), if_neg h]
        omega
    rw [hd, hc]
    omega

theorem expCond_insertTxn (i : Item) :
    ∀ (s acc : List Item) (T : RTree),
      expCond i (insertTxn acc s T) = expCond i T + condAcc i acc s := by
  intro s
  induction s with
  | nil =>
    intro acc T
    simp [insertTxn, condAcc]
  | cons j rest ih =>
    intro acc T
    rw [insertTxn]
    rw [ih (j :: acc) (bump (j :: acc) T)]
    rw [expCond_bump]
    have hd : condDelta i (j :: acc) =
        if j = i then (if acc.isEmpty then 0 else {acc.reverse}) else 0 := rfl
    rw [hd]
    show (expCond i T + (if j = i then (if acc.isEmpty then 0 else {acc.reverse}) else 0))
          + condAcc i (j :: acc) rest =
      expCond i T +
        ((if j = i then (if acc.isEmpty then 0 else {acc.reverse}) else 0)
          + condAcc i (j :: acc) rest)
    rw [add_assoc]

theorem mem_headerItems_insertTxn (i : Item) :
    ∀ (s acc : List Item) (T : RTree),
      i ∈ headerItems (insertTxn acc s T) ↔ i ∈ headerItems T ∨ i ∈ s := by
  intro s
  induction s with
  | nil =>
    intro acc T
    simp [insertTxn]
  | cons j rest ih =>
    intro acc T
    rw [insertTxn]
    rw [ih (j :: acc) (bump (j :: acc) T)]
    rw [mem_headerItems_bump]
    simp only [List.head?_cons, Option.some.injEq, List.mem_cons]
    constructor
    · rintro ((h | h) | h)
      · exact Or.inl h
      · exact Or.inr (Or.inl h.symm)
      · exact Or.inr (Or.inr h)
    · rintro (h | (h | h))
      · exact Or.inl (Or.inl h)
      · exact Or.inl (Or.inr h.symm)
      · exact Or.inr h

theorem isEmptyT_insertTxn :
    ∀ (s acc : List Item) (T : RTree),
      isEmptyT (insertTxn acc s T) = true ↔
        (isEmptyT T = true ∧ (acc.isEmpty = true → s.isEmpty = true)) := by
  intro s
  induction s with
  | nil =>
    intro acc T
    simp [insertTxn]
  | cons j rest ih =>
    intro acc T
    rw [insertTxn]
    rw [ih (j :: acc) (bump (j :: acc) T)]
    rw [isEmptyT_bump]
    simp only [List.isEmpty_cons]
    constructor
    · rintro ⟨⟨h1, h2⟩, -⟩
      refine ⟨h1, fun hacc => ?_⟩
      exfalso
      apply h2
      simp only [List.length_cons]
      have : acc.length = 0 := by
        rcases List.isEmpty_iff.mp hacc with h
        rw [h]
        rfl
      omega
    · rintro ⟨h1, h2⟩
      refine ⟨⟨h1, ?_⟩, fun h => by simp at h⟩
      intro hlen
      have hacc : acc = [] := by
        simp only [List.length_cons] at hlen
        have : acc.length = 0 := by omega
        exact List.length_eq_zero.mp this
      have := h2 (by rw [hacc]; rfl)
      simp at this

theorem chainSupport_foldl (i : Item) (fr : Item → ℕ) (m : ℕ) :
    ∀ (l : List (List Item)) (T : RTree),
      chainSupport i (l.foldl (buildStep fr m) T) =
        chainSupport i T + (l.map (fun t => (sortFilter fr m t).count i)).sum := by
  intro l
  induction l with
  | nil =>
    intro T
    simp
  | cons t rest ih =>
    intro T
    rw [List.foldl_cons, ih]
    have hstep : chainSupport i (buildStep fr m T t) =
        chainSupport i T + (sortFilter fr m t).count i := by
      unfold buildStep
      by_cases h : (sortFilter fr m t).isEmpty
      · rw [if_pos h]
        rw [List.isEmpty_iff.mp h]
        rfl
      · rw [if_neg h]
        exact chainSupport_insertTxn i (sortFilter fr m t) [] T
    rw [hstep]
    simp only [List.map_cons, List.sum_cons]
    omega

theorem expCond_foldl (i : Item) (fr : Item → ℕ) (m : ℕ) :
    ∀ (l : List (List Item)) (T : RTree),
      expCond i (l.foldl (buildStep fr m) T) =
        expCond i T + (l.map (fun t => condAcc i [] (sortFilter fr m t))).sum := by
  intro l
  induction l with
  | nil =>
    intro T
    simp
  | cons t rest ih =>
    intro T
    rw [List.foldl_cons, ih]
    have hstep : expCond i (buildStep fr m T t) =
        expCond i T + condAcc i [] (sortFilter fr m t) := by
      unfold buildStep
      by_cases h : (sortFilter fr m t).isEmpty
      · rw [if_pos h]
        rw [List.isEmpty_iff.mp h]
        simp [condAcc]
      · rw [if_neg h]
        exact expCond_insertTxn i (sortFilter fr m t) [] T
    rw [hstep]
    simp only [List.map_cons, List.sum_cons]
    rw [add_assoc]

theorem mem_headerItems_foldl (i : Item) (fr : Item → ℕ) (m : ℕ) :
    ∀ (l : List (List Item)) (T : RTree),
      i ∈ headerItems (l.foldl (buildStep fr m) T) ↔
        i ∈ headerItems T ∨ ∃ t ∈ l, i ∈ sortFilter fr m t := by
  intro l
  induction l with
  | nil =>
    intro T
    simp
  | cons t rest ih =>
    intro T
    rw [List.foldl_cons, ih]
    have hstep : i ∈ headerItems (buildStep fr m T t) ↔
        i ∈ headerItems T ∨ i ∈ sortFilter fr m t := by
      unfold buildStep
      by_cases h : (sortFilter fr m t).isEmpty
      · rw [if_pos h]
        rw [List.isEmpty_iff.mp h]
        simp
      · rw [if_neg h]
        exact mem_headerItems_insertTxn i (sortFilter fr m t) [] T
    rw [hstep]
    simp only [List.mem_cons]
    constructor
    · rintro ((h | h) | ⟨t2, ht2, h⟩)
      · exact Or.inl h
      · exact Or.inr ⟨t, Or.inl rfl, h⟩
      · exact Or.inr ⟨t2, Or.inr ht2, h⟩
    · rintro (h | ⟨t2, ht2 | ht2, h⟩)
      · exact Or.inl (Or.inl h)
      · rw [ht2] at h
        exact Or.inl (Or.inr h)
      · exact Or.inr ⟨t2, ht2, h⟩

theorem isEmptyT_foldl (fr : Item → ℕ) (m : ℕ) :
    ∀ (l : List (List Item)) (T : RTree),
      isEmptyT (l.foldl (buildStep fr m) T) = true ↔
        (isEmptyT T = true ∧ ∀ t ∈ l, sortFilter fr m t = []) := by
  intro l
  induction l with
  | nil =>
    intro T
    simp
  | cons t rest ih =>
    intro T
    rw [List.foldl_cons, ih]
    have hstep : isEmptyT (buildStep fr m T t) = true ↔
        (isEmptyT T = true ∧ sortFilter fr m t = []) := by
      unfold buildStep
      by_cases h : (sortFilter fr m t).isEmpty
      · rw [if_pos h]
        rw [List.isEmpty_iff.mp h]
        simp
      · rw [if_neg h]
        rw [isEmptyT_insertTxn (sortFilter fr m t) [] T]
        simp only [List.isEmpty_nil, true_implies]
        constructor
        · rintro ⟨h1, h2⟩
          exact ⟨h1, List.isEmpty_iff.mp h2⟩
        · rintro ⟨h1, h2⟩
          exact absurd (by rw [h2]; rfl : (sortFilter fr m t).isEmpty = true) h
    rw [hstep]
    constructor
    · rintro ⟨⟨h1, h2⟩, h3⟩
      refine ⟨h1, fun t2 ht2 => ?_⟩
      rcases List.mem_cons.mp ht2 with h4 | h4
      · rw [h4]
        exact h2
      · exact h3 t2 h4
    · rintro ⟨h1, h2⟩
      exact ⟨⟨h1, h2 t (List.mem_cons_self _ _)⟩,
        fun t2 ht2 => h2 t2 (List.mem_cons_of_mem _ ht2)⟩

/-! ### Permutation invariance of the built tree quantities -/

theorem freqOf_perm {ts₁ ts₂ : List (List Item)} (h : ts₁.Perm ts₂) :
    freqOf ts₁ = freqOf ts₂ := by
  funext i
  unfold freqOf
  exact (h.map (fun t => t.count i)).sum_eq

theorem chainSupport_buildT_perm (i : Item) (m : ℕ) {ts₁ ts₂ : List (List Item)}
    (h : ts₁.Perm ts₂) :
    chainSupport i (buildT ts₁ m) = chainSupport i (buildT ts₂ m) := by
  unfold buildT
  rw [chainSupport_foldl, chainSupport_foldl, freqOf_perm h]
  exact congrArg _ (h.map (fun t => (sortFilter (freqOf ts₂) m t).count i)).sum_eq

theorem expCond_buildT_perm (i : Item) (m : ℕ) {ts₁ ts₂ : List (List Item)}
    (h : ts₁.Perm ts₂) :
    expCond i (buildT ts₁ m) = expCond i (buildT ts₂ m) := by
  unfold buildT
  rw [expCond_foldl, expCond_foldl, freqOf_perm h]
  exact congrArg _
    (h.map (fun t => condAcc i [] (sortFilter (freqOf ts₂) m t))).sum_eq

theorem mem_headerItems_buildT_perm (i : Item) (m : ℕ) {ts₁ ts₂ : List (List Item)}
    (h : ts₁.Perm ts₂) :
    (i ∈ headerItems (buildT ts₁ m)) ↔ (i ∈ headerItems (buildT ts₂ m)) := by
  unfold buildT
  rw [mem_headerItems_foldl, mem_headerItems_foldl, freqOf_perm h]
  constructor
  · rintro (h1 | ⟨t, ht, h1⟩)
    · exact Or.inl h1
    · exact Or.inr ⟨t, h.mem_iff.mp ht, h1⟩
  · rintro (h1 | ⟨t, ht, h1⟩)
    · exact Or.inl h1
    · exact Or.inr ⟨t, h.mem_iff.mpr ht, h1⟩

theorem isEmptyT_buildT_perm (m : ℕ) {ts₁ ts₂ : List (List Item)}
    (h : ts₁.Perm ts₂) :
    isEmptyT (buildT ts₁ m) = isEmptyT (buildT ts₂ m) := by
  have hiff : isEmptyT (buildT ts₁ m) = true ↔ isEmptyT (buildT ts₂ m) = true := by
    unfold buildT
    rw [isEmptyT_foldl, isEmptyT_foldl, freqOf_perm h]
    constructor
    · rintro ⟨h1, h2⟩
      exact ⟨h1, fun t ht => h2 t (h.mem_iff.mpr ht)⟩
    · rintro ⟨h1, h2⟩
      exact ⟨h1, fun t ht => h2 t (h.mem_iff.mp ht)⟩
  cases h1 : isEmptyT (buildT ts₁ m)
  · cases h2 : isEmptyT (buildT ts₂ m)
    · rfl
    · rw [h1] at hiff
      exact absurd (hiff.mpr h2) (by simp)
  · rw [hiff.mp h1]

theorem perm_isEmpty {α : Type} {l₁ l₂ : List α} (h : l₁.Perm l₂) :
    l₁.isEmpty = l₂.isEmpty := by
  have hl := h.length_eq
  cases l₁ <;> cases l₂ <;> simp_all

theorem toFinset_flatMap {α β : Type} [DecidableEq α] [DecidableEq β]
    (l : List α) (f : α → List β) :
    (l.flatMap f).toFinset = l.toFinset.biUnion (fun a => (f a).toFinset) := by
  induction l with
  | nil => simp
  | cons a rest ih =>
    rw [List.flatMap_cons, List.toFinset_append, ih, List.toFinset_cons,
      Finset.biUnion_insert]

theorem fpgrowthMine_build_perm :
    ∀ (fuel m : ℕ) (pre : Finset Item) {ts₁ ts₂ : List (List Item)},
      ts₁.Perm ts₂ →
      (fpgrowthMine fuel (FPTree.build ts₁ m) m pre).toFinset =
        (fpgrowthMine fuel (FPTree.build ts₂ m) m pre).toFinset := by
  intro fuel
  induction fuel with
  | zero =>
    intro m pre ts₁ ts₂ h
    rfl
  | succ fuel ih =>
    intro m pre ts₁ ts₂ h
    rw [fpgrowthMine, fpgrowthMine, toFinset_flatMap, toFinset_flatMap]
    apply Finset.biUnion_congr
    · ext i
      simp only [List.mem_toFinset, orderedHeader, mem_pySort]
      show i ∈ headerItems (buildT ts₁ m) ↔ i ∈ headerItems (buildT ts₂ m)
      exact mem_headerItems_buildT_perm i m h
    · intro i _
      show (mineItem (fpgrowthMine fuel) (FPTree.build ts₁ m) m pre i).toFinset =
        (mineItem (fpgrowthMine fuel) (FPTree.build ts₂ m) m pre i).toFinset
      simp only [mineItem]
      have htree₁ : (FPTree.build ts₁ m).tree = buildT ts₁ m := rfl
      have htree₂ : (FPTree.build ts₂ m).tree = buildT ts₂ m := rfl
      rw [htree₁, htree₂]
      rw [chainSupport_buildT_perm i m h]
      by_cases hlt : chainSupport i (buildT ts₂ m) < m
      · rw [if_pos hlt, if_pos hlt]
      · rw [if_neg hlt, if_neg hlt]
        have hperm : (expandPatterns (condBase i (buildT ts₁ m))).Perm
            (expandPatterns (condBase i (buildT ts₂ m))) :=
          Multiset.coe_eq_coe.mp (expCond_buildT_perm i m h)
        have hie : (expandPatterns (condBase i (buildT ts₁ m))).isEmpty =
            (expandPatterns (condBase i (buildT ts₂ m))).isEmpty :=
          perm_isEmpty hperm
        rw [List.toFinset_cons, List.toFinset_cons]
        by_cases hce : (expandPatterns (condBase i (buildT ts₂ m))).isEmpty = true
        · rw [if_pos (hie.trans hce), if_pos hce]
        · rw [if_neg (fun hcon => hce ((hie.symm).trans hcon)), if_neg hce]
          have hister : isEmptyT (buildT (expandPatterns (condBase i (buildT ts₁ m))) m)
              = isEmptyT (buildT (expandPatterns (condBase i (buildT ts₂ m))) m) :=
            isEmptyT_buildT_perm m hperm
          have htree₃ : ∀ c : List (List Item),
              (FPTree.build c m).tree = buildT c m := fun _ => rfl
          rw [htree₃, htree₃, hister]
          by_cases hi2 : isEmptyT (buildT (expandPatterns (condBase i (buildT ts₂ m))) m)
            = true
          · rw [if_pos hi2, if_pos hi2]
          · rw [if_neg hi2, if_neg hi2]
            rw [ih m (insert i pre) hperm]

theorem fuelFor_perm {ts₁ ts₂ : List (List Item)} (h : ts₁.Perm ts₂) :
    fuelFor ts₁ = fuelFor ts₂ := by
  unfold fuelFor
  rw [(h.map List.length).sum_eq]

theorem toFinset_filterMap_congr {α β : Type} [DecidableEq α] [DecidableEq β]
    {l₁ l₂ : List α} (f : α → Option β) (h : l₁.toFinset = l₂.toFinset) :
    (l₁.filterMap f).toFinset = (l₂.filterMap f).toFinset := by
  have hmem : ∀ a : α, a ∈ l₁ ↔ a ∈ l₂ := by
    intro a
    rw [← List.mem_toFinset, ← List.mem_toFinset, h]
  ext b
  simp only [List.mem_toFinset, List.mem_filterMap]
  constructor
  · rintro ⟨a, ha, hf⟩
    exact ⟨a, (hmem a).mp ha, hf⟩
  · rintro ⟨a, ha, hf⟩
    exact ⟨a, (hmem a).mpr ha, hf⟩

/-- C6: mining is order-independent over its input: permuting the
transaction list leaves the set of (support, itemset) result pairs of
`fpgrowth` unchanged, and the function is deterministic (two runs on the
same input give the same result). -/
theorem fpgrowth_order_invariant :
    (∀ (ts₁ ts₂ : List (List Item)), ts₁.Perm ts₂ →
      ∀ (minSupport : ℚ) (maxLen : ℕ),
        (fpgrowth ts₁ minSupport maxLen).toFinset =
          (fpgrowth ts₂ minSupport maxLen).toFinset) ∧
    (∀ (ts : List (List Item)) (minSupport : ℚ) (maxLen : ℕ),
        fpgrowth ts minSupport maxLen = fpgrowth ts minSupport maxLen) := by
  constructor
  · intro ts₁ ts₂ h s m
    unfold fpgrowth fpgrowthRaw
    rw [h.length_eq, fuelFor_perm h]
    exact toFinset_filterMap_congr _
      (fpgrowthMine_build_perm (fuelFor ts₂) (minCountOf s ts₂.length) ∅ h)
  · intro ts s m
    rfl

theorem fpgrowth_order_invariant_witness :
    (fpgrowth [["a"],["b"]] 1 2).toFinset = (fpgrowth [["b"],["a"]] 1 2).toFinset :=
  fpgrowth_order_invariant.1 [["a"],["b"]] [["b"],["a"]]
    (List.Perm.swap ["b"] ["a"] []) 1 2
